import Mathlib

/-!
# Verification of the partitioned batching sink core (`src/sinks/util/sink.rs`)

This file gives a shallow embedding of the sink-core logic of the repository:
the `ServiceSink` ordered-ack accounting (`call` / `poll_complete`), the
`StdServiceLogic` status derivation, and the `PartitionBatchSink` driver
(`start_send` / `poll_flush` / `ordered`).  Hash maps are embedded as
association lists, the tokio runtime is embedded as an explicit environment
oracle (which linger timers have elapsed, which spawned tasks have completed,
what the downstream service answers to `poll_ready`), and each `Poll`-driven
loop is embedded as a fuel-indexed recursion whose fuel-exhaustion outcome is
kept distinct from the panicking branches of the source.
-/

namespace VectorSink

/-! ## Association lists (embedding of `std::collections::HashMap`)

The source stores `pending_acks`, `partitions`, `lingers` and the ordered-mode
`in_flight` map in `HashMap`s.  We embed a hash map as an association list
with pairwise-distinct keys; iteration order of a `HashMap` is unspecified, so
the list order is simply one admissible iteration order. -/

universe u v

/-- Keys of an association list. -/
def keysOf {K : Type u} {V : Type v} (l : List (K × V)) : List K :=
  l.map Prod.fst

/-- `HashMap::get`. -/
def alistLookup {K : Type u} {V : Type v} [DecidableEq K] (k : K) :
    List (K × V) → Option V
  | [] => none
  | (k0, v) :: rest => if k0 = k then some v else alistLookup k rest

/-- `HashMap::insert` (replace the binding of `k` if present, else add it). -/
def alistInsert {K : Type u} {V : Type v} [DecidableEq K] (k : K) (v : V) :
    List (K × V) → List (K × V)
  | [] => [(k, v)]
  | (k0, v0) :: rest =>
    if k0 = k then (k, v) :: rest else (k0, v0) :: alistInsert k v rest

/-- `HashMap::remove`, returning the removed value and the remaining map. -/
def alistRemove {K : Type u} {V : Type v} [DecidableEq K] (k : K) :
    List (K × V) → Option (V × List (K × V))
  | [] => none
  | (k0, v) :: rest =>
    if k0 = k then some (v, rest)
    else
      match alistRemove k rest with
      | none => none
      | some (v0, rest0) => some (v0, (k0, v) :: rest0)

@[simp] theorem keysOf_nil {K : Type u} {V : Type v} :
    keysOf ([] : List (K × V)) = [] := rfl

@[simp] theorem keysOf_cons {K : Type u} {V : Type v} (p : K × V) (l : List (K × V)) :
    keysOf (p :: l) = p.1 :: keysOf l := rfl

section AlistLemmas

variable {K : Type u} {V : Type v} [DecidableEq K]

@[simp] theorem alistInsert_cons_eq (k : K) (v v0 : V) (rest : List (K × V)) :
    alistInsert k v ((k, v0) :: rest) = (k, v) :: rest := by
  simp [alistInsert]

theorem alistInsert_cons_ne {k k0 : K} (h : k0 ≠ k) (v v0 : V) (rest : List (K × V)) :
    alistInsert k v ((k0, v0) :: rest) = (k0, v0) :: alistInsert k v rest := by
  simp [alistInsert, h]

theorem alistLookup_eq_none {k : K} {l : List (K × V)} :
    alistLookup k l = none ↔ k ∉ keysOf l := by
  induction l with
  | nil => simp [alistLookup]
  | cons p rest ih =>
    obtain ⟨k0, v⟩ := p
    by_cases h : k0 = k
    · subst h
      simp [alistLookup]
    · simp only [alistLookup, if_neg h, keysOf_cons, List.mem_cons, ih]
      constructor
      · intro hni hc
        rcases hc with hc | hc
        · exact h hc.symm
        · exact hni hc
      · intro hni hc
        exact hni (Or.inr hc)

theorem alistRemove_eq_none {k : K} {l : List (K × V)} :
    alistRemove k l = none ↔ k ∉ keysOf l := by
  induction l with
  | nil => simp [alistRemove]
  | cons p rest ih =>
    obtain ⟨k0, v⟩ := p
    by_cases h : k0 = k
    · subst h
      simp [alistRemove]
    · simp only [alistRemove, if_neg h]
      cases hrec : alistRemove k rest with
      | none =>
        have hnotin : k ∉ keysOf rest := ih.mp hrec
        simp [h, Ne.symm h, hnotin]
      | some pr =>
        have hk : k ∈ keysOf rest := by
          by_contra hnot
          rw [ih.mpr hnot] at hrec
          cases hrec
        simp only [keysOf_cons, List.mem_cons]
        constructor
        · intro hcontra; cases hcontra
        · intro hmem
          exact absurd (Or.inr hk) hmem

theorem alistRemove_length {k : K} {v : V} {l rest : List (K × V)}
    (h : alistRemove k l = some (v, rest)) : l.length = rest.length + 1 := by
  induction l generalizing rest with
  | nil => simp [alistRemove] at h
  | cons p tail ih =>
    obtain ⟨k0, v0⟩ := p
    by_cases hk : k0 = k
    · simp only [alistRemove, if_pos hk] at h
      cases h
      simp
    · simp only [alistRemove, if_neg hk] at h
      cases hrec : alistRemove k tail with
      | none => simp [hrec] at h
      | some pr =>
        obtain ⟨v1, rest1⟩ := pr
        simp only [hrec] at h
        cases h
        simp [ih hrec]

theorem alistRemove_mem {k : K} {v : V} {l rest : List (K × V)}
    (h : alistRemove k l = some (v, rest)) : (k, v) ∈ l := by
  induction l generalizing rest with
  | nil => simp [alistRemove] at h
  | cons p tail ih =>
    obtain ⟨k0, v0⟩ := p
    by_cases hk : k0 = k
    · simp only [alistRemove, if_pos hk] at h
      cases h
      simp [hk]
    · simp only [alistRemove, if_neg hk] at h
      cases hrec : alistRemove k tail with
      | none => simp [hrec] at h
      | some pr =>
        obtain ⟨v1, rest1⟩ := pr
        simp only [hrec] at h
        cases h
        exact List.mem_cons_of_mem _ (ih hrec)

theorem alistRemove_subset {k : K} {v : V} {l rest : List (K × V)}
    (h : alistRemove k l = some (v, rest)) : ∀ p ∈ rest, p ∈ l := by
  induction l generalizing rest with
  | nil => simp [alistRemove] at h
  | cons p tail ih =>
    obtain ⟨k0, v0⟩ := p
    by_cases hk : k0 = k
    · simp only [alistRemove, if_pos hk] at h
      cases h
      exact fun q hq => List.mem_cons_of_mem _ hq
    · simp only [alistRemove, if_neg hk] at h
      cases hrec : alistRemove k tail with
      | none => simp [hrec] at h
      | some pr =>
        obtain ⟨v1, rest1⟩ := pr
        simp only [hrec] at h
        cases h
        intro q hq
        rcases List.mem_cons.mp hq with hq | hq
        · exact hq ▸ List.mem_cons_self _ _
        · exact List.mem_cons_of_mem _ (ih hrec q hq)

theorem alistRemove_keys {k : K} {v : V} {l rest : List (K × V)}
    (hnd : (keysOf l).Nodup) (h : alistRemove k l = some (v, rest)) :
    (keysOf rest).Nodup ∧ ∀ i, i ∈ keysOf rest ↔ i ∈ keysOf l ∧ i ≠ k := by
  induction l generalizing rest with
  | nil => simp [alistRemove] at h
  | cons p tail ih =>
    obtain ⟨k0, v0⟩ := p
    simp only [keysOf_cons, List.nodup_cons] at hnd
    by_cases hk : k0 = k
    · subst hk
      simp only [alistRemove, if_pos rfl] at h
      cases h
      refine ⟨hnd.2, fun i => ?_⟩
      constructor
      · intro hi
        refine ⟨List.mem_cons_of_mem _ hi, ?_⟩
        rintro rfl
        exact hnd.1 hi
      · rintro ⟨hi, hne⟩
        rcases List.mem_cons.mp hi with rfl | hi
        · exact absurd rfl hne
        · exact hi
    · simp only [alistRemove, if_neg hk] at h
      cases hrec : alistRemove k tail with
      | none => simp [hrec] at h
      | some pr =>
        obtain ⟨v1, rest1⟩ := pr
        simp only [hrec] at h
        cases h
        obtain ⟨hnd1, hiff⟩ := ih hnd.2 hrec
        refine ⟨?_, fun i => ?_⟩
        · simp only [keysOf_cons, List.nodup_cons]
          exact ⟨fun hmem => hnd.1 ((hiff k0).mp hmem).1, hnd1⟩
        · simp only [keysOf_cons, List.mem_cons]
          constructor
          · rintro (rfl | hi)
            · exact ⟨Or.inl rfl, hk⟩
            · obtain ⟨hi1, hi2⟩ := (hiff i).mp hi
              exact ⟨Or.inr hi1, hi2⟩
          · rintro ⟨rfl | hi, hne⟩
            · exact Or.inl rfl
            · exact Or.inr ((hiff i).mpr ⟨hi, hne⟩)

theorem alistInsert_keys_mem {k : K} {v : V} {l : List (K × V)} (i : K) :
    i ∈ keysOf (alistInsert k v l) ↔ i = k ∨ i ∈ keysOf l := by
  induction l with
  | nil => simp [alistInsert]
  | cons p rest ih =>
    obtain ⟨k0, v0⟩ := p
    by_cases hk : k0 = k
    · subst hk
      rw [alistInsert_cons_eq]
      simp only [keysOf_cons, List.mem_cons]
      tauto
    · rw [alistInsert_cons_ne hk]
      simp only [keysOf_cons, List.mem_cons, ih]
      tauto

theorem alistInsert_keys_nodup {k : K} {v : V} {l : List (K × V)}
    (hnd : (keysOf l).Nodup) : (keysOf (alistInsert k v l)).Nodup := by
  induction l with
  | nil => simp [alistInsert]
  | cons p rest ih =>
    obtain ⟨k0, v0⟩ := p
    simp only [keysOf_cons, List.nodup_cons] at hnd
    by_cases hk : k0 = k
    · subst hk
      rw [alistInsert_cons_eq]
      simp only [keysOf_cons, List.nodup_cons]
      exact hnd
    · rw [alistInsert_cons_ne hk]
      simp only [keysOf_cons, List.nodup_cons]
      refine ⟨fun hmem => ?_, ih hnd.2⟩
      rcases (alistInsert_keys_mem k0).mp hmem with rfl | hmem
      · exact hk rfl
      · exact hnd.1 hmem

theorem alistInsert_mem {k : K} {v : V} {l : List (K × V)} {p : K × V}
    (h : p ∈ alistInsert k v l) : p = (k, v) ∨ p ∈ l := by
  induction l with
  | nil => simpa [alistInsert] using h
  | cons q rest ih =>
    obtain ⟨k0, v0⟩ := q
    by_cases hk : k0 = k
    · subst hk
      rw [alistInsert_cons_eq] at h
      rcases List.mem_cons.mp h with rfl | h
      · exact Or.inl rfl
      · exact Or.inr (List.mem_cons_of_mem _ h)
    · rw [alistInsert_cons_ne hk] at h
      rcases List.mem_cons.mp h with rfl | h
      · exact Or.inr (List.mem_cons_self _ _)
      · rcases ih h with h | h
        · exact Or.inl h
        · exact Or.inr (List.mem_cons_of_mem _ h)

theorem alistLookup_insert_self {K : Type u} {V : Type v} [DecidableEq K]
    (k : K) (v : V) (l : List (K × V)) :
    alistLookup k (alistInsert k v l) = some v := by
  induction l with
  | nil => simp [alistInsert, alistLookup]
  | cons p rest ih =>
    obtain ⟨k0, v0⟩ := p
    by_cases hk : k0 = k
    · subst hk
      rw [alistInsert_cons_eq]
      simp [alistLookup]
    · rw [alistInsert_cons_ne hk]
      simp [alistLookup, hk, ih]

theorem alistLookup_insert_ne {K : Type u} {V : Type v} [DecidableEq K]
    {k2 k : K} (h : k2 ≠ k) (v : V) (l : List (K × V)) :
    alistLookup k2 (alistInsert k v l) = alistLookup k2 l := by
  induction l with
  | nil => simp [alistInsert, alistLookup, Ne.symm h]
  | cons p rest ih =>
    obtain ⟨k0, v0⟩ := p
    by_cases hk : k0 = k
    · subst hk
      rw [alistInsert_cons_eq]
      simp [alistLookup, Ne.symm h]
    · rw [alistInsert_cons_ne hk]
      simp [alistLookup, ih]

theorem alistLookup_mem {K : Type u} {V : Type v} [DecidableEq K]
    {k : K} {v : V} {l : List (K × V)} (h : alistLookup k l = some v) :
    (k, v) ∈ l := by
  induction l with
  | nil => simp [alistLookup] at h
  | cons p rest ih =>
    obtain ⟨k0, v0⟩ := p
    by_cases hk : k0 = k
    · subst hk
      simp [alistLookup] at h
      subst h
      exact List.mem_cons_self _ _
    · simp only [alistLookup, if_neg hk] at h
      exact List.mem_cons_of_mem _ (ih h)

theorem mem_alistLookup_nodup {K : Type u} {V : Type v} [DecidableEq K]
    {k : K} {v : V} {l : List (K × V)} (hnd : (keysOf l).Nodup)
    (h : (k, v) ∈ l) : alistLookup k l = some v := by
  induction l with
  | nil => cases h
  | cons p rest ih =>
    obtain ⟨k0, v0⟩ := p
    simp only [keysOf_cons, List.nodup_cons] at hnd
    rcases List.mem_cons.mp h with heq | hmem
    · cases heq
      simp [alistLookup]
    · have hk : k0 ≠ k := by
        rintro rfl
        exact hnd.1 (List.mem_map_of_mem Prod.fst hmem)
      simp only [alistLookup, if_neg hk]
      exact ih hnd.2 hmem

theorem alistInsert_mem_nodup {K : Type u} {V : Type v} [DecidableEq K]
    {k : K} {v : V} {l : List (K × V)} {p : K × V} (hnd : (keysOf l).Nodup) :
    p ∈ alistInsert k v l ↔ p = (k, v) ∨ (p ∈ l ∧ p.1 ≠ k) := by
  induction l with
  | nil => simp [alistInsert]
  | cons q rest ih =>
    obtain ⟨k0, v0⟩ := q
    simp only [keysOf_cons, List.nodup_cons] at hnd
    by_cases hk : k0 = k
    · subst hk
      rw [alistInsert_cons_eq]
      simp only [List.mem_cons]
      constructor
      · rintro (rfl | hmem)
        · exact Or.inl rfl
        · refine Or.inr ⟨Or.inr hmem, ?_⟩
          rintro heq
          exact hnd.1 (heq ▸ List.mem_map_of_mem Prod.fst hmem)
      · rintro (rfl | ⟨hmem, hne⟩)
        · exact Or.inl rfl
        · rcases hmem with rfl | hmem
          · exact absurd rfl hne
          · exact Or.inr hmem
    · rw [alistInsert_cons_ne hk]
      simp only [List.mem_cons, ih hnd.2]
      constructor
      · rintro (rfl | rfl | ⟨hmem, hne⟩)
        · refine Or.inr ⟨Or.inl rfl, ?_⟩
          simpa using hk
        · exact Or.inl rfl
        · exact Or.inr ⟨Or.inr hmem, hne⟩
      · rintro (rfl | ⟨rfl | hmem, hne⟩)
        · exact Or.inr (Or.inl rfl)
        · exact Or.inl rfl
        · exact Or.inr (Or.inr ⟨hmem, hne⟩)

end AlistLemmas

/-! ## `ServiceSink` ordered-ack accounting

Embedding of the ack bookkeeping of `ServiceSink` (`sink.rs` lines 441-554).
`call` assigns `seqno = seq_head` and increments `seq_head`; the spawned task
eventually delivers `(seqno, batch_size)` over a oneshot channel;
`poll_complete` inserts each delivered pair into `pending_acks`, then removes
the contiguous run starting at `seq_tail`, summing the removed counts into
`num_to_ack`, and calls `acker.ack(num_to_ack)` once per delivered pair.
`ackCalls` records, in order, every count passed to `acker.ack`. -/

/-- The ack-accounting state of `ServiceSink`: `seq_tail`, `pending_acks`,
and the trace of counts passed to `acker.ack`. -/
structure AckState where
  seqTail : Nat
  pendingAcks : List (Nat × Nat)
  ackCalls : List Nat
deriving Repr, DecidableEq

/-- Initial ack state of `ServiceSink::new_with_logic`: `seq_tail = 0`,
`pending_acks` empty, no ack has been issued. -/
def initAck : AckState :=
  { seqTail := 0, pendingAcks := [], ackCalls := [] }

/-- The `while let Some(ack_size) = self.pending_acks.remove(&self.seq_tail)`
loop of `ServiceSink::poll_complete`: starting from `tail`, repeatedly remove
the entry keyed by the current tail, accumulating the removed counts and
advancing the tail.  The loop removes one map entry per iteration, so fuel
equal to the size of `pending_acks` makes the recursion exhaustive; the
result is `(num_to_ack, new seq_tail, remaining pending_acks)`. -/
def drainAcks : Nat → Nat → List (Nat × Nat) → Nat × Nat × List (Nat × Nat)
  | 0, tail, pending => (0, tail, pending)
  | fuel + 1, tail, pending =>
    match alistRemove tail pending with
    | none => (0, tail, pending)
    | some (v, rest) =>
      let r := drainAcks fuel (tail + 1) rest
      (v + r.1, r.2.1, r.2.2)

/-- Processing of one received completion `(seqno, batch_size)` inside
`ServiceSink::poll_complete`: insert it into `pending_acks`, drain the
contiguous run at `seq_tail`, and call `acker.ack(num_to_ack)` (the source
calls `ack` unconditionally, zero or not). -/
def processCompletion (s : AckState) (seqno count : Nat) : AckState :=
  let pending := alistInsert seqno count s.pendingAcks
  let r := drainAcks pending.length s.seqTail pending
  { seqTail := r.2.1, pendingAcks := r.2.2, ackCalls := s.ackCalls ++ [r.1] }

/-- A `poll_complete` drain that receives the completions `l` in order:
each is processed by `processCompletion`.  Completions of distinct
`poll_complete` invocations compose by `processArrivals_append`. -/
def processArrivals (s : AckState) : List (Nat × Nat) → AckState
  | [] => s
  | (i, n) :: rest => processArrivals (processCompletion s i n) rest

theorem processArrivals_append (s : AckState) (l1 l2 : List (Nat × Nat)) :
    processArrivals s (l1 ++ l2) = processArrivals (processArrivals s l1) l2 := by
  induction l1 generalizing s with
  | nil => rfl
  | cons p rest ih =>
    obtain ⟨i, n⟩ := p
    simp [processArrivals, ih]

/-- Specification of the drain loop: provided the keys of `pending_acks` are
distinct, carry the counts `c`, and all sit at or above the tail, the loop
advances the tail to the end of the contiguous run of present keys, removes
exactly that run, and returns the sum of the removed counts. -/
theorem drainAcks_spec (c : Nat → Nat) :
    ∀ (fuel tail : Nat) (pending : List (Nat × Nat)),
      pending.length ≤ fuel →
      (keysOf pending).Nodup →
      (∀ p ∈ pending, p.2 = c p.1) →
      (∀ i ∈ keysOf pending, tail ≤ i) →
      tail ≤ (drainAcks fuel tail pending).2.1 ∧
      (∀ i, tail ≤ i → i < (drainAcks fuel tail pending).2.1 → i ∈ keysOf pending) ∧
      (drainAcks fuel tail pending).2.1 ∉ keysOf pending ∧
      (keysOf (drainAcks fuel tail pending).2.2).Nodup ∧
      (∀ p ∈ (drainAcks fuel tail pending).2.2, p.2 = c p.1) ∧
      (∀ i, i ∈ keysOf (drainAcks fuel tail pending).2.2 ↔
        i ∈ keysOf pending ∧ (drainAcks fuel tail pending).2.1 < i) ∧
      (drainAcks fuel tail pending).1 =
        ∑ i in Finset.Ico tail (drainAcks fuel tail pending).2.1, c i := by
  intro fuel
  induction fuel with
  | zero =>
    intro tail pending hlen hnd hvals hge
    have hpend : pending = [] := List.eq_nil_of_length_eq_zero (Nat.le_zero.mp hlen)
    subst hpend
    simp only [drainAcks]
    refine ⟨le_refl _, fun i h1 h2 => absurd h2 (by omega), by simp, by simp,
      by simp, by simp, by simp⟩
  | succ fuel ih =>
    intro tail pending hlen hnd hvals hge
    cases hrem : alistRemove tail pending with
    | none =>
      have hnotin : tail ∉ keysOf pending := alistRemove_eq_none.mp hrem
      simp only [drainAcks, hrem]
      refine ⟨le_refl _, fun i h1 h2 => absurd h2 (by omega), hnotin, hnd, hvals,
        fun i => ?_, by simp⟩
      constructor
      · intro hi
        refine ⟨hi, ?_⟩
        have := hge i hi
        rcases Nat.lt_or_ge tail i with h | h
        · exact h
        · exact absurd (le_antisymm (hge i hi) h ▸ hi) hnotin
      · exact fun h => h.1
    | some pr =>
      obtain ⟨v, rest⟩ := pr
      have hlenrest : rest.length ≤ fuel := by
        have := alistRemove_length hrem
        omega
      obtain ⟨hndrest, hkeysrest⟩ := alistRemove_keys hnd hrem
      have hvalsrest : ∀ p ∈ rest, p.2 = c p.1 :=
        fun p hp => hvals p (alistRemove_subset hrem p hp)
      have hgerest : ∀ i ∈ keysOf rest, tail + 1 ≤ i := by
        intro i hi
        obtain ⟨hi1, hi2⟩ := (hkeysrest i).mp hi
        have := hge i hi1
        omega
      have hv : v = c tail := hvals _ (alistRemove_mem hrem)
      have htailmem : tail ∈ keysOf pending := by
        have := alistRemove_mem hrem
        exact List.mem_map_of_mem Prod.fst this
      obtain ⟨ih1, ih2, ih3, ih4, ih5, ih6, ih7⟩ :=
        ih (tail + 1) rest hlenrest hndrest hvalsrest hgerest
      simp only [drainAcks, hrem]
      set r := drainAcks fuel (tail + 1) rest with hr
      refine ⟨by omega, ?_, ?_, ih4, ih5, ?_, ?_⟩
      · intro i h1 h2
        rcases Nat.eq_or_lt_of_le h1 with rfl | h1
        · exact htailmem
        · exact ((hkeysrest i).mp (ih2 i (by omega) h2)).1
      · intro hmem
        have hne : r.2.1 ≠ tail := by omega
        exact ih3 ((hkeysrest r.2.1).mpr ⟨hmem, hne⟩)
      · intro i
        rw [ih6 i, hkeysrest i]
        constructor
        · rintro ⟨⟨hi1, _⟩, hi3⟩
          exact ⟨hi1, hi3⟩
        · rintro ⟨hi1, hi3⟩
          exact ⟨⟨hi1, by omega⟩, hi3⟩
      · rw [ih7, hv]
        rw [Finset.sum_eq_sum_Ico_succ_bot (by omega : tail < r.2.1)]

/-- Invariant of the ack accounting, relative to the set `R` of seqnos whose
completions have been received so far (each dispatched seqno `i` carries the
item count `c i`).  `seq_tail` sits just past the contiguous received run,
`pending_acks` holds exactly the received seqnos at or above the tail, and
the counts passed to `acker.ack` sum to the counts of the run. -/
structure AckInv (c : Nat → Nat) (R : Nat → Prop) (s : AckState) : Prop where
  tail_notin : ¬ R s.seqTail
  below_tail : ∀ i, i < s.seqTail → R i
  keys_nodup : (keysOf s.pendingAcks).Nodup
  mem_iff : ∀ i, i ∈ keysOf s.pendingAcks ↔ R i ∧ s.seqTail ≤ i
  vals : ∀ p ∈ s.pendingAcks, p.2 = c p.1
  sum_eq : s.ackCalls.sum = ∑ i in Finset.range s.seqTail, c i

theorem AckInv.congr {c : Nat → Nat} {R1 R2 : Nat → Prop} {s : AckState}
    (h : ∀ i, R1 i ↔ R2 i) (inv : AckInv c R1 s) : AckInv c R2 s where
  tail_notin := fun hc => inv.tail_notin ((h _).mpr hc)
  below_tail := fun i hi => (h i).mp (inv.below_tail i hi)
  keys_nodup := inv.keys_nodup
  mem_iff := fun i => (inv.mem_iff i).trans (and_congr_left fun _ => h i)
  vals := inv.vals
  sum_eq := inv.sum_eq

theorem AckInv.initial (c : Nat → Nat) : AckInv c (fun _ => False) initAck where
  tail_notin := id
  below_tail := fun i hi => absurd hi (by simp [initAck])
  keys_nodup := by simp [initAck]
  mem_iff := fun i => by simp [initAck]
  vals := fun p hp => absurd hp (by simp [initAck])
  sum_eq := by simp [initAck]

/-- Receiving one fresh completion `(j, c j)` preserves the invariant,
extending the received set by `j`. -/
theorem AckInv.step {c : Nat → Nat} {R : Nat → Prop} {s : AckState}
    (inv : AckInv c R s) (j : Nat) (hj : ¬ R j) :
    AckInv c (fun i => i = j ∨ R i) (processCompletion s j (c j)) := by
  set pending0 := alistInsert j (c j) s.pendingAcks with hpending0
  have hnd0 : (keysOf pending0).Nodup := alistInsert_keys_nodup inv.keys_nodup
  have hmem0 : ∀ i, i ∈ keysOf pending0 ↔ i = j ∨ i ∈ keysOf s.pendingAcks :=
    fun i => alistInsert_keys_mem i
  have hvals0 : ∀ p ∈ pending0, p.2 = c p.1 := by
    intro p hp
    rcases alistInsert_mem hp with rfl | hp
    · rfl
    · exact inv.vals p hp
  have hjge : s.seqTail ≤ j := by
    by_contra hlt
    exact hj (inv.below_tail j (by omega))
  have hge0 : ∀ i ∈ keysOf pending0, s.seqTail ≤ i := by
    intro i hi
    rcases (hmem0 i).mp hi with rfl | hi
    · exact hjge
    · exact ((inv.mem_iff i).mp hi).2
  obtain ⟨d1, d2, d3, d4, d5, d6, d7⟩ :=
    drainAcks_spec c pending0.length s.seqTail pending0 (le_refl _) hnd0 hvals0 hge0
  set r := drainAcks pending0.length s.seqTail pending0 with hrdef
  have hstate : processCompletion s j (c j) =
      { seqTail := r.2.1, pendingAcks := r.2.2, ackCalls := s.ackCalls ++ [r.1] } := rfl
  rw [hstate]
  have htail_notin : ¬ (r.2.1 = j ∨ R r.2.1) := by
    rintro (heq | hR)
    · exact d3 ((hmem0 r.2.1).mpr (Or.inl heq))
    · exact d3 ((hmem0 r.2.1).mpr (Or.inr ((inv.mem_iff r.2.1).mpr ⟨hR, d1⟩)))
  refine ⟨htail_notin, ?_, d4, ?_, d5, ?_⟩
  · intro i hi
    rcases Nat.lt_or_ge i s.seqTail with h | h
    · exact Or.inr (inv.below_tail i h)
    · rcases (hmem0 i).mp (d2 i h hi) with rfl | hmemold
      · exact Or.inl rfl
      · exact Or.inr ((inv.mem_iff i).mp hmemold).1
  · intro i
    rw [d6 i]
    constructor
    · rintro ⟨hi0, hlt⟩
      rcases (hmem0 i).mp hi0 with rfl | hiold
      · exact ⟨Or.inl rfl, le_of_lt hlt⟩
      · exact ⟨Or.inr ((inv.mem_iff i).mp hiold).1, le_of_lt hlt⟩
    · rintro ⟨hRi, hle⟩
      have hlt : r.2.1 < i := by
        rcases Nat.eq_or_lt_of_le hle with rfl | hlt
        · exact absurd hRi htail_notin
        · exact hlt
      refine ⟨?_, hlt⟩
      rcases hRi with rfl | hRi
      · exact (hmem0 i).mpr (Or.inl rfl)
      · exact (hmem0 i).mpr (Or.inr ((inv.mem_iff i).mpr ⟨hRi, by omega⟩))
  · simp only [List.sum_append, List.sum_cons, List.sum_nil, add_zero]
    rw [inv.sum_eq, d7]
    simp only [Finset.range_eq_Ico]
    exact Finset.sum_Ico_consecutive c (Nat.zero_le _) d1

/-- Processing a batch of fresh completions preserves the invariant. -/
theorem AckInv.fold {c : Nat → Nat} {R : Nat → Prop} {s : AckState}
    (inv : AckInv c R s) :
    ∀ arr : List Nat, arr.Nodup → (∀ i ∈ arr, ¬ R i) →
      AckInv c (fun i => i ∈ arr ∨ R i)
        (processArrivals s (arr.map fun i => (i, c i))) := by
  intro arr
  induction arr generalizing R s with
  | nil =>
    intro _ _
    exact inv.congr (by simp)
  | cons j rest ih =>
    intro hnd hfresh
    have hstep := inv.step j (hfresh j (List.mem_cons_self _ _))
    have hrest :=
      ih hstep (List.nodup_cons.mp hnd).2 (by
        intro i hi
        rintro (rfl | hRi)
        · exact (List.nodup_cons.mp hnd).1 hi
        · exact hfresh i (List.mem_cons_of_mem _ hi) hRi)
    refine hrest.congr ?_
    intro i
    simp only [List.mem_cons]
    tauto

/-- **C1** (ordered ack release).  For dispatches assigned seqnos `0, 1, 2, …`
by `ServiceSink::call`, with `c i` the item count of the dispatch with seqno
`i`, suppose the completions of the distinct seqnos `arr` have been received,
in that arrival order, across any number of `poll_complete` drains
(`processArrivals_append` splits the list across drains).  Then `seq_tail`
sits exactly past the maximal contiguous prefix of completed seqnos, and the
cumulative count passed to `acker.ack` equals the sum of the item counts of
that prefix — so no count for a dispatch is released while an earlier
dispatch is incomplete. -/
theorem ordered_ack_release (c : Nat → Nat) (arr : List Nat) (hnd : arr.Nodup) :
    (processArrivals initAck (arr.map fun i => (i, c i))).seqTail ∉ arr ∧
      (∀ i, i < (processArrivals initAck (arr.map fun i => (i, c i))).seqTail →
        i ∈ arr) ∧
      (processArrivals initAck (arr.map fun i => (i, c i))).ackCalls.sum =
        ∑ i in Finset.range
          (processArrivals initAck (arr.map fun i => (i, c i))).seqTail, c i := by
  have hinv := (AckInv.initial c).fold arr hnd (by simp)
  refine ⟨?_, ?_, hinv.sum_eq⟩
  · intro hmem
    exact hinv.tail_notin (Or.inl hmem)
  · intro i hi
    rcases hinv.below_tail i hi with h | h
    · exact h
    · exact absurd h id

/-- Witness for C1 at the arrival order `1, 0, 2` (seqno 1 completes before
seqno 0) with item counts `c i = i + 1`. -/
theorem ordered_ack_release_witness :
    ([1, 0, 2] : List Nat).Nodup ∧
      ((processArrivals initAck ([1, 0, 2].map fun i => (i, i + 1))).seqTail ∉
          ([1, 0, 2] : List Nat) ∧
        (∀ i, i < (processArrivals initAck
            ([1, 0, 2].map fun i => (i, i + 1))).seqTail → i ∈ ([1, 0, 2] : List Nat)) ∧
        (processArrivals initAck ([1, 0, 2].map fun i => (i, i + 1))).ackCalls.sum =
          ∑ i in Finset.range
            (processArrivals initAck ([1, 0, 2].map fun i => (i, i + 1))).seqTail,
            (i + 1)) :=
  ⟨by decide, ordered_ack_release (fun i => i + 1) [1, 0, 2] (by decide)⟩

/-- **C2 counterexample.**  The claim states that during a single
`poll_complete` drain, `acker.ack` is called exactly once and never with a
zero count.  In the source (`sink.rs` lines 537-546) the call
`self.acker.ack(num_to_ack)` sits inside the per-completion match arm, not
after the drain loop, and is unconditional.  A drain that receives only the
completion of seqno 1 while seqno 0 is outstanding issues exactly one ack
call with count 0; a drain that receives the completions of seqnos 0 and 1
issues two ack calls. -/
theorem poll_complete_ack_per_completion_ce :
    (processArrivals initAck [(1, 5)]).ackCalls = [0] ∧
      (processArrivals initAck [(0, 1), (1, 2)]).ackCalls = [1, 2] := by
  constructor <;> rfl

/-- **C2 amended.**  During a single `poll_complete` drain, `acker.ack` is
called exactly once per completion received — with the count that became
releasable after inserting that completion, which is zero whenever a lower
seqno is still outstanding (the cumulative sum is governed by
`ordered_ack_release`). -/
theorem poll_complete_ack_call_count (s : AckState) (l : List (Nat × Nat)) :
    (processArrivals s l).ackCalls.length = s.ackCalls.length + l.length := by
  induction l generalizing s with
  | nil => simp [processArrivals]
  | cons p rest ih =>
    obtain ⟨i, n⟩ := p
    rw [processArrivals, ih]
    simp [processCompletion]
    omega

/-! ## Oneshot-channel outcomes in `poll_complete`

`ServiceSink::poll_complete` polls `in_flight`, a `FuturesUnordered` of
oneshot receivers.  Each receiver is, at drain time, either resolved with the
`(seqno, batch_size)` its task sent, resolved with `RecvError` because the
sender was dropped without sending, or not yet resolved.  `FuturesUnordered`
yields the resolved receivers (in an order the runtime chooses — the list
order below); `ready!` returns `Pending` as soon as only unresolved receivers
remain.  A `RecvError` hits the
`Some(Err(_)) => panic!("ServiceSink service sender dropped.")` arm; the
model returns `none` for that panic. -/

/-- State of one in-flight oneshot receiver at drain time. -/
inductive RecvState where
  | done (seqno count : Nat)
  | dropped
  | waiting
deriving Repr, DecidableEq

/-- One `poll_complete` drain over the in-flight receivers: resolved
receivers are processed through the ack accounting, a dropped sender
panics (`none`), and the drain reports `true` (the `Poll::Ready(())` of the
source) exactly when no receiver remains unresolved. -/
def pollCompleteRun : List RecvState → AckState → Option (Bool × AckState)
  | [], a => some (true, a)
  | RecvState.done i n :: rest, a => pollCompleteRun rest (processCompletion a i n)
  | RecvState.dropped :: _, _ => none
  | RecvState.waiting :: rest, a =>
    (pollCompleteRun rest a).map fun r => (false, r.2)

theorem pollCompleteRun_panic_iff (rs : List RecvState) (a : AckState) :
    pollCompleteRun rs a = none ↔ RecvState.dropped ∈ rs := by
  induction rs generalizing a with
  | nil => simp [pollCompleteRun]
  | cons r rest ih =>
    cases r with
    | done i n => simp [pollCompleteRun, ih]
    | dropped => simp [pollCompleteRun]
    | waiting =>
      cases h : pollCompleteRun rest a with
      | none =>
        simp only [pollCompleteRun, h, Option.map_none']
        simp [(ih a).mp h]
      | some pr =>
        have : RecvState.dropped ∉ rest := by
          intro hc
          rw [(ih a).mpr hc] at h
          cases h
        simp [pollCompleteRun, h, this]

/-! ## Status derivation (`StdServiceLogic`) and the spawned service task -/

/-- Modelled from the spec: the terminal statuses `Delivered`, `Errored`,
`Failed` of `crate::event::EventStatus` (the `vector_core` crate is not among
the provided sources; these are the only variants the sink core uses). -/
inductive EventStatus where
  | Delivered
  | Errored
  | Failed
deriving Repr, DecidableEq

/-- A downstream response, seen through the two queries of the `Response`
trait (`sink.rs` lines 621-629). -/
structure SvcResponse where
  is_successful : Bool
  is_transient : Bool
deriving Repr, DecidableEq

/-- Default body of `Response::is_successful` (`sink.rs` line 623). -/
def defaultIsSuccessful : Bool := true

/-- Default body of `Response::is_transient` (`sink.rs` line 627). -/
def defaultIsTransient : Bool := true

/-- `impl Response for ()` (`sink.rs` line 631) keeps both defaults. -/
def unitResponse : SvcResponse :=
  { is_successful := defaultIsSuccessful, is_transient := defaultIsTransient }

/-- `StdServiceLogic::result_status` (`sink.rs` lines 597-616), over a
service result with an arbitrary error type `E`. -/
def result_status {E : Type u} (result : Except E SvcResponse) : EventStatus :=
  match result with
  | Except.ok response =>
    if response.is_successful then EventStatus.Delivered
    else if response.is_transient then EventStatus.Errored
    else EventStatus.Failed
  | Except.error _ => EventStatus.Errored

/-- **C3** (status derivation).  `Err` maps to `Errored`; `Ok` with
`is_successful` maps to `Delivered`; `Ok` that is unsuccessful but transient
maps to `Errored`; `Ok` that is neither successful nor transient maps to
`Failed`; and the default trait implementations of `is_successful` and
`is_transient` both return `true`. -/
theorem result_status_spec :
    (∀ (E : Type) (e : E), result_status (Except.error e) = EventStatus.Errored) ∧
      (∀ (E : Type) (t : Bool),
        result_status (E := E) (Except.ok ⟨true, t⟩) = EventStatus.Delivered) ∧
      (∀ (E : Type),
        result_status (E := E) (Except.ok ⟨false, true⟩) = EventStatus.Errored) ∧
      (∀ (E : Type),
        result_status (E := E) (Except.ok ⟨false, false⟩) = EventStatus.Failed) ∧
      defaultIsSuccessful = true ∧ defaultIsTransient = true := by
  refine ⟨fun E e => rfl, fun E t => rfl, fun E => rfl, fun E => rfl, rfl, rfl⟩

/-- Observable effects of the task spawned by `ServiceSink::call`
(`sink.rs` lines 513-529): the terminal status the aggregate finalizer is
resolved with, whether the `EventsSent` observation fired, the message passed
to `tx.send`, and what the receiver obtains (`none` when the receiver end was
dropped — the send result is discarded by `let _ = tx.send(..)`). -/
structure TaskRun where
  status : EventStatus
  emitted : Bool
  msg : Nat × Nat
  delivered : Option (Nat × Nat)
deriving Repr, DecidableEq

/-- The spawned service task of `ServiceSink::call`, as a function of the
service result, the assigned seqno, the batch item count, and whether the
oneshot receiver is still alive. -/
def spawnedCall {E : Type u} (result : Except E SvcResponse)
    (seqno batchSize : Nat) (rxAlive : Bool) : TaskRun :=
  let status := result_status result
  { status := status
    emitted := decide (status = EventStatus.Delivered)
    msg := (seqno, batchSize)
    delivered := if rxAlive then some (seqno, batchSize) else none }

/-- **C7** (oneshot drop handling).  If a completion receiver is dropped
before the spawned task sends, the task still runs to completion with the
same finalizer status and observation — the send result is ignored, only the
delivery is lost.  If a completion sender is dropped without sending,
`ServiceSink::poll_complete` panics (the `none` outcome), and it panics in no
other situation. -/
theorem oneshot_drop_handling :
    (∀ (E : Type) (result : Except E SvcResponse) (seqno batchSize : Nat),
        (spawnedCall result seqno batchSize false).status =
            (spawnedCall result seqno batchSize true).status ∧
          (spawnedCall result seqno batchSize false).emitted =
            (spawnedCall result seqno batchSize true).emitted ∧
          (spawnedCall result seqno batchSize false).delivered = none) ∧
      (∀ (rs : List RecvState) (a : AckState),
        pollCompleteRun rs a = none ↔ RecvState.dropped ∈ rs) := by
  exact ⟨fun E result seqno batchSize => ⟨rfl, rfl, rfl⟩, pollCompleteRun_panic_iff⟩

/-! ## `PartitionBatchSink` driver model

The driver (`sink.rs` lines 202-423) is embedded with explicit state and an
environment oracle.  The `Batch` capability lives in `batch.rs`, which is not
among the provided sources; its operations are taken abstractly, as the spec
defines them, and `sink.rs` consumes them only through this interface. -/

/-- Modelled from the spec: the `Batch` capability of §3/§4.1 (`batch.rs` is
not among the provided sources).  `push` returns the updated batch and
`none` for `PushResult::Ok` or `some rejected` for `PushResult::Overflow`;
`fresh` produces a new empty batch from a prototype; `is_empty`, `was_full`
and `num_items` are the three queries `sink.rs` uses. -/
structure BatchOps (B E : Type) where
  push : B → E → B × Option E
  is_empty : B → Bool
  was_full : B → Bool
  num_items : B → Nat
  fresh : B → B

/-- The state of a `PartitionBatchSink` (`sink.rs` lines 202-215) together
with the ack bookkeeping of its inner `ServiceSink`: the prototype batch, the
one-slot overflow `buffer`, the partition table, the set of keys with armed
linger timers, the ordered-mode `in_flight` map (each handle recorded as the
seqno of the dispatch it joins), the `closing` flag, `seq_head`, the
outstanding completion receivers `(seqno, batch_size)`, and the ack state. -/
structure SinkState (K B E : Type) where
  batch : B
  buffer : Option (K × E)
  partitions : List (K × B)
  lingers : List K
  inFlightMap : Option (List (K × Nat))
  closing : Bool
  seqHead : Nat
  svcInFlight : List (Nat × Nat)
  ack : AckState

/-- `PartitionBatchSink::new_with_logic` (`sink.rs` lines 243-262). -/
def newSink {K B E : Type} (batch : B) : SinkState K B E :=
  { batch := batch, buffer := none, partitions := [], lingers := [],
    inFlightMap := none, closing := false, seqHead := 0, svcInFlight := [],
    ack := initAck }

/-- `PartitionBatchSink::ordered` (`sink.rs` lines 265-267). -/
def ordered {K B E : Type} (s : SinkState K B E) : SinkState K B E :=
  { s with inFlightMap := some [] }

/-- Boolean key membership. -/
def keyMem {K : Type} [DecidableEq K] (k : K) (l : List K) : Bool :=
  decide (k ∈ l)

/-- The batch `start_send` pushes onto: the live batch of the partition of
the item, or a fresh batch when the partition has no entry. -/
def targetBatch {K B E : Type} [DecidableEq K] (ops : BatchOps B E)
    (keyOf : E → K) (s : SinkState K B E) (item : E) : B :=
  match alistLookup (keyOf item) s.partitions with
  | some b => b
  | none => ops.fresh s.batch

/-- `PartitionBatchSink::start_send` (`sink.rs` lines 299-322): find or
create the partition entry (creation arms a linger), push the item, and on
overflow write `(key, rejected)` into the one-slot buffer.  The source
returns `Ok(())` on every path. -/
def start_send {K B E : Type} [DecidableEq K] (ops : BatchOps B E)
    (keyOf : E → K) (s : SinkState K B E) (item : E) : SinkState K B E :=
  let partition := keyOf item
  let existing := alistLookup partition s.partitions
  let pushed := ops.push (targetBatch ops keyOf s item) item
  { s with
    partitions := alistInsert partition pushed.1 s.partitions
    lingers := if existing.isSome then s.lingers else s.lingers ++ [partition]
    buffer := match pushed.2 with
      | some rejected => some (partition, rejected)
      | none => s.buffer }

/-- One `poll_ready` answer of the downstream service. -/
inductive SvcPoll (Err : Type) where
  | ready
  | readyErr (e : Err)
  | notReady

/-- Environment oracle for one `poll_flush` invocation: which linger timers
have elapsed, which spawned tasks (by seqno) have completed — used both for
the ordered-mode handles and for the completion receivers — and the answers
of the downstream service to successive `poll_ready` calls. -/
structure FlushEnv (K Err : Type) where
  linger : K → Bool
  taskDone : Nat → Bool
  svcReady : Nat → SvcPoll Err

/-- The ordered-mode gate of the readiness check (`sink.rs` lines 345-350):
`in_flight.as_mut().and_then(|map| map.get_mut(partition)).map(poll)`. -/
def gateFor {K : Type} [DecidableEq K] (m : Option (List (K × Nat)))
    (done : Nat → Bool) (k : K) : Option (Option Bool) :=
  match m with
  | none => none
  | some mp => some ((alistLookup k mp).map done)

/-- `.unwrap_or(true)` over the gate: no ordered mode, or no handle for this
partition, leaves the partition unblocked; otherwise the handle must have
resolved. -/
def gateVal : Option (Option Bool) → Bool
  | none => true
  | some none => true
  | some (some r) => r

/-- The per-partition readiness check of `poll_flush` (`sink.rs` lines
336-351).  The linger map is consulted only if neither `closing && non-empty`
nor `was_full` short-circuits the disjunction; a missing linger entry then
hits `.expect("linger should exists for poll_flush")`, the `none` outcome. -/
def partitionReadyChk (closing isEmptyB wasFullB lingerPresent lingerElapsed : Bool)
    (gate : Option (Option Bool)) : Option Bool :=
  if (closing && !isEmptyB) || wasFullB then some (gateVal gate)
  else if lingerPresent then some (lingerElapsed && gateVal gate)
  else none

/-- The `partitions_ready` collection loop of `poll_flush` (`sink.rs` lines
334-354), over one admissible iteration order of the partition map;
`none` is the linger-expect panic. -/
def readyScan {K B E Err : Type} [DecidableEq K] (ops : BatchOps B E)
    (env : FlushEnv K Err) (closing : Bool) (lingers : List K)
    (m : Option (List (K × Nat))) : List (K × B) → Option (List K)
  | [] => some []
  | (k, b) :: rest =>
    match partitionReadyChk closing (ops.is_empty b) (ops.was_full b)
        (keyMem k lingers) (env.linger k) (gateFor m env.taskDone k) with
    | none => none
    | some true =>
      (readyScan ops env closing lingers m rest).map (fun ks => k :: ks)
    | some false => readyScan ops env closing lingers m rest

/-- One dispatched batch: partition key, assigned seqno, the batch handed to
`finish`/`call`, and its `num_items` count. -/
structure DispRec (K B : Type) where
  key : K
  seqno : Nat
  batch : B
  items : Nat

/-- Outcome of the dispatch loop over `partitions_ready` (`sink.rs` lines
355-380).  `unreach` is the `partitions.remove(partition).unwrap()` panic. -/
inductive LoopOut (K B E Err : Type) where
  | unreach (ds : List (DispRec K B))
  | fail (e : Err) (ds : List (DispRec K B))
  | ok (s : SinkState K B E) (cnt : Nat) (consumed : Bool) (ds : List (DispRec K B))

/-- The dispatch loop of `poll_flush`: for each ready partition, poll the
service; on `Ready(Err)` return the error, on `Pending` stop, on `Ready(Ok)`
remove the partition entry and its linger, finish the batch, `call` the
service (assigning `seqno = seq_head`, registering a completion receiver, in
ordered mode storing the new handle under the key), and mark
`batch_consumed`. -/
def dispatchLoop {K B E Err : Type} [DecidableEq K] (ops : BatchOps B E)
    (env : FlushEnv K Err) :
    List K → SinkState K B E → Nat → Bool → List (DispRec K B) →
      LoopOut K B E Err
  | [], s, cnt, consumed, ds => LoopOut.ok s cnt consumed ds
  | k :: rest, s, cnt, consumed, ds =>
    match env.svcReady cnt with
    | SvcPoll.readyErr e => LoopOut.fail e ds
    | SvcPoll.notReady => LoopOut.ok s (cnt + 1) consumed ds
    | SvcPoll.ready =>
      match alistRemove k s.partitions with
      | none => LoopOut.unreach ds
      | some (b, parts) =>
        let batchSize := ops.num_items b
        let seqno := s.seqHead
        let s2 : SinkState K B E := { s with
          partitions := parts
          lingers := s.lingers.filter (fun k2 => decide (k2 ≠ k))
          seqHead := seqno + 1
          svcInFlight := s.svcInFlight ++ [(seqno, batchSize)]
          inFlightMap := match s.inFlightMap with
            | none => none
            | some m => some (alistInsert k seqno m) }
        dispatchLoop ops env rest s2 (cnt + 1) true
          (ds ++ [⟨k, seqno, b, batchSize⟩])

/-- The in-flight cleanup of `poll_flush` (`sink.rs` lines 385-395): when
there are more stored handles than live partitions, retain a handle iff its
partition is live or its task has not completed. -/
def gcInFlight {K B E Err : Type} [DecidableEq K] (env : FlushEnv K Err)
    (s : SinkState K B E) : SinkState K B E :=
  match s.inFlightMap with
  | none => s
  | some m =>
    if s.partitions.length < m.length then
      { s with inFlightMap := some (m.filter (fun p =>
          keyMem p.1 (keysOf s.partitions) || !(env.taskDone p.2))) }
    else s

/-- The completion drain of `ServiceSink::poll_complete` as seen from the
driver: receivers whose task has completed are processed through the ack
accounting; the rest stay in flight (the drain is `Ready` iff none stay). -/
def drainCompletions (done : Nat → Bool) :
    List (Nat × Nat) → AckState → List (Nat × Nat) × AckState
  | [], a => ([], a)
  | (i, n) :: rest, a =>
    if done i then drainCompletions done rest (processCompletion a i n)
    else
      let r := drainCompletions done rest a
      ((i, n) :: r.1, r.2)

/-- Outcome of one `poll_flush` invocation.  `fuelOut` is exhaustion of the
recursion fuel (the source loops unboundedly); `unreach` covers the panicking
branches (`unreachable!("Empty buffer overflowed.")`, the partition
`.unwrap()` and the linger `.expect`); `fail` is `Poll::Ready(Err(_))`;
`pend` and `readyOk` are `Poll::Pending` and `Poll::Ready(Ok(()))`.  Each
outcome carries the dispatches performed before it. -/
inductive FlushOut (K B E Err : Type) where
  | fuelOut (ds : List (DispRec K B))
  | unreach (ds : List (DispRec K B))
  | fail (e : Err) (ds : List (DispRec K B))
  | pend (s : SinkState K B E) (ds : List (DispRec K B))
  | readyOk (s : SinkState K B E) (ds : List (DispRec K B))

/-- The fall-through tail of a `poll_flush` iteration (`sink.rs` lines
412-414): drain the service completions and return `Pending`. -/
def flushBottom {K B E Err : Type} (env : FlushEnv K Err)
    (s : SinkState K B E) (ds : List (DispRec K B)) : FlushOut K B E Err :=
  let r := drainCompletions env.taskDone s.svcInFlight s.ack
  FlushOut.pend { s with svcInFlight := r.1, ack := r.2 } ds

/-- `PartitionBatchSink::poll_flush` (`sink.rs` lines 324-416), one
invocation, fuel-indexed over the `loop`:
if the buffer and partition table are empty, drain completions and return
`Ready(Ok(()))` (or `Pending` if receivers remain); otherwise scan
readiness, run the dispatch loop, and either continue after a dispatch,
or clean up handles, try to move the buffered item into a fresh partition
(re-invoking `start_send`; a re-overflow is the `unreachable!` branch),
or fall through to a completion drain and `Pending`. -/
def pollFlushAux {K B E Err : Type} [DecidableEq K] (ops : BatchOps B E)
    (keyOf : E → K) (env : FlushEnv K Err) :
    Nat → SinkState K B E → Nat → List (DispRec K B) → FlushOut K B E Err
  | 0, _, _, ds => FlushOut.fuelOut ds
  | fuel + 1, s, cnt, ds =>
    if s.buffer.isNone && s.partitions.isEmpty then
      let r := drainCompletions env.taskDone s.svcInFlight s.ack
      let s2 : SinkState K B E := { s with svcInFlight := r.1, ack := r.2 }
      if r.1.isEmpty then FlushOut.readyOk s2 ds else FlushOut.pend s2 ds
    else
      match readyScan ops env s.closing s.lingers s.inFlightMap s.partitions with
      | none => FlushOut.unreach ds
      | some readyKs =>
        match dispatchLoop ops env readyKs s cnt false [] with
        | LoopOut.unreach newDs => FlushOut.unreach (ds ++ newDs)
        | LoopOut.fail e newDs => FlushOut.fail e (ds ++ newDs)
        | LoopOut.ok s2 cnt2 consumed newDs =>
          if consumed then
            pollFlushAux ops keyOf env fuel s2 cnt2 (ds ++ newDs)
          else
            let s3 := gcInFlight env s2
            match s3.buffer with
            | some kitem =>
              if keyMem kitem.1 (keysOf s3.partitions) then
                flushBottom env s3 (ds ++ newDs)
              else
                let s4 := start_send ops keyOf { s3 with buffer := none } kitem.2
                if s4.buffer.isSome then FlushOut.unreach (ds ++ newDs)
                else pollFlushAux ops keyOf env fuel s4 cnt2 (ds ++ newDs)
            | none => flushBottom env s3 (ds ++ newDs)

/-- Modelled from the spec: a concrete `Batch` with an event-count limit
(the `VecBuffer` of the source tests with `BatchSettings::events(cap)`),
used to instantiate the abstract capability in witnesses. -/
structure VB (E : Type) where
  items : List E
  wasFullFlag : Bool
deriving Repr, DecidableEq

/-- Modelled from the spec: the `BatchOps` of `VB` — `push` absorbs an item
while under the cap and otherwise rejects it, latching `was_full`; `fresh`
is empty and not `was_full`. -/
def vecOps (E : Type) (cap : Nat) : BatchOps (VB E) E where
  push b e :=
    if b.items.length < cap then
      ({ items := b.items ++ [e], wasFullFlag := b.wasFullFlag }, none)
    else
      ({ b with wasFullFlag := true }, some e)
  is_empty b := b.items.isEmpty
  was_full b := b.wasFullFlag
  num_items b := b.items.length
  fresh _ := { items := [], wasFullFlag := false }

/-- One driver operation: accept an event, or run one `poll_flush`
invocation under an environment with the given fuel. -/
inductive DriverOp (K B E Err : Type) where
  | send (item : E)
  | flush (env : FlushEnv K Err) (fuel : Nat)

/-- Run a list of driver operations from a state, collecting every dispatch
tagged with the index of the operation that performed it.  A failed, stuck
or fuel-starved flush halts the run (its dispatches are still recorded). -/
def runOpsAux {K B E Err : Type} [DecidableEq K] (ops : BatchOps B E)
    (keyOf : E → K) :
    Nat → List (DriverOp K B E Err) → SinkState K B E →
      SinkState K B E × List (Nat × DispRec K B)
  | _, [], s => (s, [])
  | idx, DriverOp.send item :: rest, s =>
    runOpsAux ops keyOf (idx + 1) rest (start_send ops keyOf s item)
  | idx, DriverOp.flush env fuel :: rest, s =>
    match pollFlushAux ops keyOf env fuel s 0 [] with
    | FlushOut.readyOk s2 ds =>
      let r := runOpsAux ops keyOf (idx + 1) rest s2
      (r.1, ds.map (fun d => (idx, d)) ++ r.2)
    | FlushOut.pend s2 ds =>
      let r := runOpsAux ops keyOf (idx + 1) rest s2
      (r.1, ds.map (fun d => (idx, d)) ++ r.2)
    | FlushOut.fail _ ds => (s, ds.map (fun d => (idx, d)))
    | FlushOut.fuelOut ds => (s, ds.map (fun d => (idx, d)))
    | FlushOut.unreach ds => (s, ds.map (fun d => (idx, d)))

/-- **C9** (quiescence at `Ready(Ok)`).  `poll_flush` returns
`Poll::Ready(Ok(()))` only from the branch guarded by an empty overflow
buffer and an empty partition table, after a completion drain that left no
in-flight receiver — so at that point every dispatched completion has been
received and processed (all releasable acks emitted by the drain); on every
other path it returns `Pending`, an error, or diverges. -/
theorem poll_flush_ready_quiescent {K B E Err : Type} [DecidableEq K]
    (ops : BatchOps B E) (keyOf : E → K) (env : FlushEnv K Err) :
    ∀ (fuel : Nat) (s : SinkState K B E) (cnt : Nat) (ds : List (DispRec K B))
      (s2 : SinkState K B E) (ds2 : List (DispRec K B)),
      pollFlushAux ops keyOf env fuel s cnt ds = FlushOut.readyOk s2 ds2 →
      s2.buffer = none ∧ s2.partitions = [] ∧ s2.svcInFlight = [] := by
  intro fuel
  induction fuel with
  | zero =>
    intro s cnt ds s2 ds2 h
    simp [pollFlushAux] at h
  | succ fuel ih =>
    intro s cnt ds s2 ds2 h
    rw [pollFlushAux] at h
    by_cases hq : s.buffer.isNone && s.partitions.isEmpty
    · rw [if_pos hq] at h
      have hbuf : s.buffer = none := by
        have := (Bool.and_eq_true _ _).mp hq
        exact Option.isNone_iff_eq_none.mp this.1
      have hparts : s.partitions = [] := by
        have := (Bool.and_eq_true _ _).mp hq
        exact List.isEmpty_iff.mp this.2
      by_cases hr : (drainCompletions env.taskDone s.svcInFlight s.ack).1.isEmpty
      · rw [if_pos hr] at h
        cases h
        exact ⟨hbuf, hparts, List.isEmpty_iff.mp hr⟩
      · rw [if_neg hr] at h
        cases h
    · rw [if_neg hq] at h
      split at h
      · cases h
      · split at h
        · cases h
        · cases h
        · split at h
          · exact ih _ _ _ _ _ h
          · dsimp only at h
            split at h
            · split at h
              · simp [flushBottom] at h
              · split at h
                · cases h
                · exact ih _ _ _ _ _ h
            · simp [flushBottom] at h

/-- An empty concrete batch, for witnesses. -/
def vbEmpty : VB Nat := { items := [], wasFullFlag := false }

/-- A witness environment: nothing elapsed, no task done, service ready. -/
def envIdle : FlushEnv Nat Unit :=
  { linger := fun _ => false, taskDone := fun _ => false,
    svcReady := fun _ => SvcPoll.ready }

/-- A witness key projection mapping every event to partition 0. -/
def natKey : Nat → Nat := fun _ => 0

/-- Witness for C9: on the quiescent initial sink, one `poll_flush`
invocation returns `Ready(Ok(()))`. -/
theorem poll_flush_ready_quiescent_witness :
    pollFlushAux (vecOps Nat 1) natKey envIdle 1 (newSink vbEmpty) 0 [] =
      FlushOut.readyOk (newSink vbEmpty) [] ∧
      ((newSink vbEmpty : SinkState Nat (VB Nat) Nat).buffer = none ∧
        (newSink vbEmpty : SinkState Nat (VB Nat) Nat).partitions = [] ∧
        (newSink vbEmpty : SinkState Nat (VB Nat) Nat).svcInFlight = []) :=
  ⟨rfl, poll_flush_ready_quiescent (vecOps Nat 1) natKey envIdle 1 (newSink vbEmpty)
    0 [] (newSink vbEmpty) [] rfl⟩

theorem gateVal_gateFor_iff {K : Type} [DecidableEq K]
    (m : Option (List (K × Nat))) (done : Nat → Bool) (k : K) :
    gateVal (gateFor m done k) = true ↔
      ∀ mp seq, m = some mp → alistLookup k mp = some seq → done seq = true := by
  cases m with
  | none =>
    simp [gateFor, gateVal]
  | some mp =>
    cases hlk : alistLookup k mp with
    | none =>
      simp only [gateFor, hlk, Option.map_none', gateVal]
      constructor
      · intro _ mp2 seq heq hl
        cases heq
        rw [hlk] at hl
        cases hl
      · intro _
        trivial
    | some seq =>
      simp only [gateFor, hlk, Option.map_some', gateVal]
      constructor
      · intro hdone mp2 seq2 heq hl
        cases heq
        rw [hlk] at hl
        cases hl
        exact hdone
      · intro hall
        exact hall mp seq rfl hlk

theorem partitionReadyChk_some_iff {closing e f lp le : Bool}
    {g : Option (Option Bool)} {r : Bool}
    (h : partitionReadyChk closing e f lp le g = some r) :
    r = true ↔
      (((closing = true ∧ e = false) ∨ f = true ∨ le = true) ∧
        gateVal g = true) := by
  unfold partitionReadyChk at h
  by_cases hA : ((closing && !e) || f) = true
  · rw [if_pos hA] at h
    injection h with h
    subst h
    constructor
    · intro hg
      refine ⟨?_, hg⟩
      rcases (Bool.or_eq_true _ _).mp hA with hA2 | hA2
      · obtain ⟨h1, h2⟩ := (Bool.and_eq_true _ _).mp hA2
        exact Or.inl ⟨h1, by simpa using h2⟩
      · exact Or.inr (Or.inl hA2)
    · exact fun hc => hc.2
  · rw [if_neg hA] at h
    by_cases hlp : lp = true
    · rw [if_pos hlp] at h
      injection h with h
      subst h
      have hcfalse : ¬ (closing = true ∧ e = false) := by
        rintro ⟨h1, h2⟩
        exact hA (by simp [h1, h2])
      have hffalse : f ≠ true := fun hf => hA (by simp [hf])
      constructor
      · intro hle
        obtain ⟨h1, h2⟩ := (Bool.and_eq_true _ _).mp hle
        exact ⟨Or.inr (Or.inr h1), h2⟩
      · rintro ⟨hd | hd | hd, hg⟩
        · exact absurd hd hcfalse
        · exact absurd hd hffalse
        · simp [hd, hg]
    · rw [if_neg hlp] at h
      cases h

theorem readyScan_subset {K B E Err : Type} [DecidableEq K] (ops : BatchOps B E)
    (env : FlushEnv K Err) (closing : Bool) (lingers : List K)
    (m : Option (List (K × Nat))) :
    ∀ (parts : List (K × B)) (ks : List K),
      readyScan ops env closing lingers m parts = some ks →
      ∀ k ∈ ks, k ∈ keysOf parts := by
  intro parts
  induction parts with
  | nil =>
    intro ks h k hk
    simp only [readyScan, Option.some.injEq] at h
    subst h
    cases hk
  | cons p rest ih =>
    obtain ⟨k0, b0⟩ := p
    intro ks h k hk
    simp only [readyScan] at h
    split at h
    · cases h
    · cases hrec : readyScan ops env closing lingers m rest with
      | none => rw [hrec] at h; cases h
      | some ks2 =>
        rw [hrec] at h
        simp only [Option.map_some', Option.some.injEq] at h
        subst h
        rcases List.mem_cons.mp hk with rfl | hk
        · simp
        · exact List.mem_cons_of_mem _ (ih ks2 hrec k hk)
    · rcases ih ks h k hk with hmem
      exact List.mem_cons_of_mem _ hmem

/-- **C4** (dispatch readiness).  In an iteration of
`PartitionBatchSink::poll_flush` over a partition table with distinct keys,
a partition `(k, b)` is collected into `partitions_ready` iff
((the sink is closing and `b` is non-empty) or `b` latched `was_full` or the
linger timer of `k` has elapsed) and, when per-partition ordering is enabled
and a prior in-flight handle for `k` is stored, that handle has resolved. -/
theorem dispatch_readiness {K B E Err : Type} [DecidableEq K]
    (ops : BatchOps B E) (env : FlushEnv K Err) (closing : Bool)
    (lingers : List K) (m : Option (List (K × Nat))) (parts : List (K × B))
    (ks : List K) (k : K) (b : B)
    (hnd : (keysOf parts).Nodup)
    (hscan : readyScan ops env closing lingers m parts = some ks)
    (hmem : (k, b) ∈ parts) :
    k ∈ ks ↔
      (((closing = true ∧ ops.is_empty b = false) ∨ ops.was_full b = true ∨
          env.linger k = true) ∧
        (∀ mp seq, m = some mp → alistLookup k mp = some seq →
          env.taskDone seq = true)) := by
  induction parts generalizing ks with
  | nil => cases hmem
  | cons p rest ih =>
    obtain ⟨k0, b0⟩ := p
    simp only [keysOf_cons, List.nodup_cons] at hnd
    simp only [readyScan] at hscan
    rcases List.mem_cons.mp hmem with heq | hmemrest
    · cases heq
      split at hscan
      · cases hscan
      case h_2 hchk =>
        cases hrec : readyScan ops env closing lingers m rest with
        | none => rw [hrec] at hscan; cases hscan
        | some ks2 =>
          rw [hrec] at hscan
          simp only [Option.map_some', Option.some.injEq] at hscan
          subst hscan
          have hRHS := (partitionReadyChk_some_iff hchk).mp rfl
          rw [← gateVal_gateFor_iff m env.taskDone k]
          exact iff_of_true (List.mem_cons_self _ _) hRHS
      case h_3 hchk =>
        have hfalse : ¬ (((closing = true ∧ ops.is_empty b = false) ∨
            ops.was_full b = true ∨ env.linger k = true) ∧
            gateVal (gateFor m env.taskDone k) = true) := by
          intro hc
          have hft : (false : Bool) = true := (partitionReadyChk_some_iff hchk).mpr hc
          cases hft
        have hnotin : k ∉ ks := fun hc =>
          hnd.1 (readyScan_subset ops env closing lingers m rest ks hscan k hc)
        rw [← gateVal_gateFor_iff m env.taskDone k]
        exact iff_of_false hnotin hfalse
    · have hkne : k ≠ k0 := by
        rintro rfl
        exact hnd.1 (List.mem_map_of_mem Prod.fst hmemrest)
      split at hscan
      · cases hscan
      case h_2 hchk =>
        cases hrec : readyScan ops env closing lingers m rest with
        | none => rw [hrec] at hscan; cases hscan
        | some ks2 =>
          rw [hrec] at hscan
          simp only [Option.map_some', Option.some.injEq] at hscan
          subst hscan
          rw [List.mem_cons]
          rw [ih ks2 hnd.2 hrec hmemrest]
          constructor
          · rintro (rfl | hc)
            · exact absurd rfl hkne
            · exact hc
          · exact fun hc => Or.inr hc
      case h_3 hchk =>
        exact ih ks hnd.2 hscan hmemrest

/-- Witness for C4: a one-partition table whose batch latched `was_full` is
collected as ready. -/
theorem dispatch_readiness_witness :
    (keysOf [((0 : Nat), ({ items := [7], wasFullFlag := true } : VB Nat))]).Nodup ∧
      readyScan (vecOps Nat 1) envIdle false [0] none
          [(0, { items := [7], wasFullFlag := true })] = some [0] ∧
      ((0 : Nat), ({ items := [7], wasFullFlag := true } : VB Nat)) ∈
        [((0 : Nat), ({ items := [7], wasFullFlag := true } : VB Nat))] ∧
      ((0 : Nat) ∈ [(0 : Nat)] ↔
        (((false = true ∧ (vecOps Nat 1).is_empty { items := [7], wasFullFlag := true } = false) ∨
            (vecOps Nat 1).was_full { items := [7], wasFullFlag := true } = true ∨
            envIdle.linger 0 = true) ∧
          (∀ mp seq, (none : Option (List (Nat × Nat))) = some mp →
            alistLookup 0 mp = some seq → envIdle.taskDone seq = true))) :=
  ⟨by decide, rfl, by decide,
    dispatch_readiness (vecOps Nat 1) envIdle false [0] none
      [(0, { items := [7], wasFullFlag := true })] [0] 0
      { items := [7], wasFullFlag := true } (by decide) rfl (by decide)⟩

/-- The `Result` returned by `PartitionBatchSink::start_send`, paired with
the successor state: the source returns `Ok(())` on every control path. -/
def start_send_call {K B E : Type} (Err : Type) [DecidableEq K]
    (ops : BatchOps B E) (keyOf : E → K) (s : SinkState K B E) (item : E) :
    Except Err (SinkState K B E) :=
  Except.ok (start_send ops keyOf s item)

/-- **C10** (start_send protocol).  `start_send` always returns `Ok`, and
when it is called while the one-slot overflow buffer is already occupied and
the push overflows, the buffer is overwritten with the new `(key, rejected)`
pair — the previously buffered pair is dropped without receiving a terminal
status (partitions of other keys are untouched), so honoring `poll_ready`
before `start_send` is what prevents loss. -/
theorem start_send_ok_overwrite {K B E Err : Type} [DecidableEq K]
    (ops : BatchOps B E) (keyOf : E → K) (s : SinkState K B E) (item : E)
    (p0 : K × E) (_hbuf : s.buffer = some p0) (rej : E)
    (hover : (ops.push (targetBatch ops keyOf s item) item).2 = some rej) :
    (start_send_call Err ops keyOf s item).isOk = true ∧
      (start_send ops keyOf s item).buffer = some (keyOf item, rej) ∧
      (∀ k2, k2 ≠ keyOf item →
        alistLookup k2 (start_send ops keyOf s item).partitions =
          alistLookup k2 s.partitions) := by
  refine ⟨rfl, ?_, ?_⟩
  · simp only [start_send, hover]
  · intro k2 hk2
    simp only [start_send]
    exact alistLookup_insert_ne hk2 _ _

/-- Witness for C10: a full one-event batch rejects the next event of its
partition, and the occupied buffer slot is overwritten. -/
theorem start_send_ok_overwrite_witness :
    ({ batch := vbEmpty, buffer := some (0, 5),
        partitions := [(0, { items := [7], wasFullFlag := false })],
        lingers := [0], inFlightMap := none, closing := false, seqHead := 0,
        svcInFlight := [], ack := initAck } :
          SinkState Nat (VB Nat) Nat).buffer = some (0, 5) ∧
      ((vecOps Nat 1).push (targetBatch (vecOps Nat 1) natKey
        { batch := vbEmpty, buffer := some (0, 5),
          partitions := [(0, { items := [7], wasFullFlag := false })],
          lingers := [0], inFlightMap := none, closing := false, seqHead := 0,
          svcInFlight := [], ack := initAck } 9) 9).2 = some 9 ∧
      ((start_send_call Unit (vecOps Nat 1) natKey
          { batch := vbEmpty, buffer := some (0, 5),
            partitions := [(0, { items := [7], wasFullFlag := false })],
            lingers := [0], inFlightMap := none, closing := false, seqHead := 0,
            svcInFlight := [], ack := initAck } 9).isOk = true ∧
        (start_send (vecOps Nat 1) natKey
          { batch := vbEmpty, buffer := some (0, 5),
            partitions := [(0, { items := [7], wasFullFlag := false })],
            lingers := [0], inFlightMap := none, closing := false, seqHead := 0,
            svcInFlight := [], ack := initAck } 9).buffer = some (natKey 9, 9) ∧
        (∀ k2, k2 ≠ natKey 9 →
          alistLookup k2 (start_send (vecOps Nat 1) natKey
            { batch := vbEmpty, buffer := some (0, 5),
              partitions := [(0, { items := [7], wasFullFlag := false })],
              lingers := [0], inFlightMap := none, closing := false, seqHead := 0,
              svcInFlight := [], ack := initAck } 9).partitions =
            alistLookup k2 [((0 : Nat), ({ items := [7], wasFullFlag := false } : VB Nat))])) :=
  ⟨rfl, rfl,
    start_send_ok_overwrite (vecOps Nat 1) natKey _ 9 (0, 5) rfl 9 rfl⟩

/-- Structural well-formedness of the driver state: distinct partition keys,
a linger entry for every live partition, and a buffered item tagged with its
own partition key — exactly what `start_send` maintains. -/
structure SinkWf {K B E : Type} (keyOf : E → K) (s : SinkState K B E) : Prop where
  parts_nd : (keysOf s.partitions).Nodup
  linger_cover : ∀ k, k ∈ keysOf s.partitions → k ∈ s.lingers
  buffer_key : ∀ p, s.buffer = some p → p.1 = keyOf p.2

theorem start_send_wf {K B E : Type} [DecidableEq K] (ops : BatchOps B E)
    (keyOf : E → K) (s : SinkState K B E) (item : E)
    (hrej : ∀ (b : B) (e2 : E) (b2 : B) (r2 : E),
      ops.push b e2 = (b2, some r2) → r2 = e2)
    (hwf : SinkWf keyOf s) : SinkWf keyOf (start_send ops keyOf s item) := by
  refine ⟨?_, ?_, ?_⟩
  · simp only [start_send]
    exact alistInsert_keys_nodup hwf.parts_nd
  · intro k hk
    simp only [start_send] at hk ⊢
    rcases (alistInsert_keys_mem k).mp hk with rfl | hk
    · cases hex : (alistLookup (keyOf item) s.partitions) with
      | some b =>
        have : keyOf item ∈ keysOf s.partitions :=
          List.mem_map_of_mem Prod.fst (alistLookup_mem hex)
        simp only [hex, Option.isSome_some, if_true]
        exact hwf.linger_cover _ this
      | none =>
        simp only [hex, Option.isSome_none, Bool.false_eq_true, if_false]
        exact List.mem_append_right _ (List.mem_singleton.mpr rfl)
    · have hl := hwf.linger_cover k hk
      split
      · exact hl
      · exact List.mem_append_left _ hl
  · intro p hp
    simp only [start_send] at hp
    cases hpush : (ops.push (targetBatch ops keyOf s item) item).2 with
    | some rejected =>
      rw [hpush] at hp
      cases hp
      have : ops.push (targetBatch ops keyOf s item) item =
          ((ops.push (targetBatch ops keyOf s item) item).1, some rejected) := by
        rw [← hpush]
      have := hrej _ _ _ _ this
      simp [this]
    | none =>
      rw [hpush] at hp
      exact hwf.buffer_key p hp

theorem partitionReadyChk_eq_none {closing e f lp le : Bool}
    {g : Option (Option Bool)}
    (h : partitionReadyChk closing e f lp le g = none) : lp = false := by
  unfold partitionReadyChk at h
  by_cases hA : ((closing && !e) || f) = true
  · rw [if_pos hA] at h
    cases h
  · rw [if_neg hA] at h
    by_cases hlp : lp = true
    · rw [if_pos hlp] at h
      cases h
    · simpa using hlp

theorem readyScan_ne_none {K B E Err : Type} [DecidableEq K]
    (ops : BatchOps B E) (env : FlushEnv K Err) (closing : Bool)
    (lingers : List K) (m : Option (List (K × Nat))) :
    ∀ (parts : List (K × B)),
      (∀ k ∈ keysOf parts, k ∈ lingers) →
      readyScan ops env closing lingers m parts ≠ none := by
  intro parts
  induction parts with
  | nil =>
    intro _ h
    simp [readyScan] at h
  | cons p rest ih =>
    obtain ⟨k0, b0⟩ := p
    intro hcov h
    have hcovrest : ∀ k ∈ keysOf rest, k ∈ lingers :=
      fun k hk => hcov k (List.mem_cons_of_mem _ hk)
    simp only [readyScan] at h
    split at h
    case h_1 hchk =>
      have hlp := partitionReadyChk_eq_none hchk
      have : keyMem k0 lingers = true := by
        simp only [keyMem, decide_eq_true_eq]
        exact hcov k0 (by simp)
      rw [this] at hlp
      cases hlp
    case h_2 hchk =>
      cases hrec : readyScan ops env closing lingers m rest with
      | none => exact ih hcovrest hrec
      | some ks2 => rw [hrec] at h; cases h
    case h_3 hchk =>
      exact ih hcovrest h

theorem readyScan_nodup {K B E Err : Type} [DecidableEq K]
    (ops : BatchOps B E) (env : FlushEnv K Err) (closing : Bool)
    (lingers : List K) (m : Option (List (K × Nat))) :
    ∀ (parts : List (K × B)) (ks : List K),
      (keysOf parts).Nodup →
      readyScan ops env closing lingers m parts = some ks →
      ks.Nodup := by
  intro parts
  induction parts with
  | nil =>
    intro ks _ h
    simp only [readyScan, Option.some.injEq] at h
    subst h
    exact List.nodup_nil
  | cons p rest ih =>
    obtain ⟨k0, b0⟩ := p
    intro ks hnd h
    simp only [keysOf_cons, List.nodup_cons] at hnd
    simp only [readyScan] at h
    split at h
    · cases h
    · cases hrec : readyScan ops env closing lingers m rest with
      | none => rw [hrec] at h; cases h
      | some ks2 =>
        rw [hrec] at h
        simp only [Option.map_some', Option.some.injEq] at h
        subst h
        refine List.nodup_cons.mpr ⟨?_, ih ks2 hnd.2 hrec⟩
        intro hc
        exact hnd.1 (readyScan_subset ops env closing lingers m rest ks2 hrec k0 hc)
    · exact ih ks hnd.2 h

theorem gcInFlight_fields {K B E Err : Type} [DecidableEq K]
    (env : FlushEnv K Err) (s : SinkState K B E) :
    (gcInFlight env s).partitions = s.partitions ∧
      (gcInFlight env s).lingers = s.lingers ∧
      (gcInFlight env s).buffer = s.buffer ∧
      (gcInFlight env s).batch = s.batch ∧
      (gcInFlight env s).svcInFlight = s.svcInFlight ∧
      (gcInFlight env s).closing = s.closing ∧
      (gcInFlight env s).seqHead = s.seqHead := by
  unfold gcInFlight
  split
  · exact ⟨rfl, rfl, rfl, rfl, rfl, rfl, rfl⟩
  · split
    · exact ⟨rfl, rfl, rfl, rfl, rfl, rfl, rfl⟩
    · exact ⟨rfl, rfl, rfl, rfl, rfl, rfl, rfl⟩

theorem gcInFlight_wf {K B E Err : Type} [DecidableEq K] {keyOf : E → K}
    (env : FlushEnv K Err) (s : SinkState K B E) (hwf : SinkWf keyOf s) :
    SinkWf keyOf (gcInFlight env s) := by
  obtain ⟨h1, h2, h3, _⟩ := gcInFlight_fields env s
  exact ⟨h1 ▸ hwf.parts_nd, fun k hk => h2 ▸ hwf.linger_cover k (h1 ▸ hk),
    fun p hp => hwf.buffer_key p (h3 ▸ hp)⟩

/-- The dispatch loop neither hits the partition `.unwrap()` panic nor
breaks well-formedness, provided the ready keys are distinct live
partitions. -/
theorem dispatchLoop_wf {K B E Err : Type} [DecidableEq K] (ops : BatchOps B E)
    (env : FlushEnv K Err) (keyOf : E → K) :
    ∀ (readyKs : List K) (s : SinkState K B E) (cnt : Nat) (consumed : Bool)
      (ds : List (DispRec K B)),
      readyKs.Nodup →
      (∀ k ∈ readyKs, k ∈ keysOf s.partitions) →
      SinkWf keyOf s →
      (∀ ds2, dispatchLoop ops env readyKs s cnt consumed ds ≠
        LoopOut.unreach ds2) ∧
      (∀ s2 cnt2 c2 ds2,
        dispatchLoop ops env readyKs s cnt consumed ds =
          LoopOut.ok s2 cnt2 c2 ds2 →
        SinkWf keyOf s2 ∧ s2.buffer = s.buffer) := by
  intro readyKs
  induction readyKs with
  | nil =>
    intro s cnt consumed ds _ _ hwf
    constructor
    · intro ds2 h
      cases h
    · intro s2 cnt2 c2 ds2 h
      cases h
      exact ⟨hwf, rfl⟩
  | cons k rest ih =>
    intro s cnt consumed ds hnd hsub hwf
    simp only [dispatchLoop]
    cases env.svcReady cnt with
    | readyErr e =>
      constructor
      · intro ds2 h
        cases h
      · intro s2 cnt2 c2 ds2 h
        cases h
    | notReady =>
      constructor
      · intro ds2 h
        cases h
      · intro s2 cnt2 c2 ds2 h
        cases h
        exact ⟨hwf, rfl⟩
    | ready =>
      cases hrem : alistRemove k s.partitions with
      | none =>
        exfalso
        exact (alistRemove_eq_none.mp hrem) (hsub k (List.mem_cons_self _ _))
      | some pr =>
        obtain ⟨b, parts⟩ := pr
        obtain ⟨hndrest, hkeysrest⟩ := alistRemove_keys hwf.parts_nd hrem
        simp only [List.nodup_cons] at hnd
        have hwf2 : SinkWf keyOf { s with
            partitions := parts
            lingers := s.lingers.filter (fun k2 => decide (k2 ≠ k))
            seqHead := s.seqHead + 1
            svcInFlight := s.svcInFlight ++ [(s.seqHead, ops.num_items b)]
            inFlightMap := match s.inFlightMap with
              | none => none
              | some m => some (alistInsert k s.seqHead m) } := by
          refine ⟨hndrest, ?_, fun p hp => hwf.buffer_key p hp⟩
          intro k2 hk2
          obtain ⟨hk2a, hk2b⟩ := (hkeysrest k2).mp hk2
          exact List.mem_filter.mpr ⟨hwf.linger_cover k2 hk2a, by simpa using hk2b⟩
        have hsub2 : ∀ k2 ∈ rest, k2 ∈ keysOf parts := by
          intro k2 hk2
          refine (hkeysrest k2).mpr ⟨hsub k2 (List.mem_cons_of_mem _ hk2), ?_⟩
          rintro rfl
          exact hnd.1 hk2
        obtain ⟨ihu, ihok⟩ := ih _ (cnt + 1) true
          (ds ++ [⟨k, s.seqHead, b, ops.num_items b⟩]) hnd.2 hsub2 hwf2
        constructor
        · exact ihu
        · intro s2 cnt2 c2 ds2 h
          obtain ⟨hwfr, hbufr⟩ := ihok s2 cnt2 c2 ds2 h
          exact ⟨hwfr, hbufr⟩

/-- Re-invoking `start_send` on an event whose partition has no live entry
cannot overflow, provided every event fits on a fresh batch. -/
theorem start_send_fresh_no_overflow {K B E : Type} [DecidableEq K]
    (ops : BatchOps B E) (keyOf : E → K) (s : SinkState K B E) (item : E)
    (hfresh : ∀ (b : B) (e2 : E), (ops.push (ops.fresh b) e2).2 = none)
    (hnone : alistLookup (keyOf item) s.partitions = none) :
    (start_send ops keyOf s item).buffer = s.buffer := by
  simp only [start_send, targetBatch, hnone, hfresh]

/-- **C8** (the `unreachable!` branch is dead).  Under the precondition that
every single event fits when pushed onto a fresh batch (and that `push`
returns the rejected item itself on overflow, as the Batch contract states),
no invocation of `poll_flush` from a well-formed state reaches a panicking
branch — in particular, re-invoking `start_send` on the buffered overflow
event after its partition entry was removed always absorbs the event into
the new fresh batch, so `unreachable!("Empty buffer overflowed.")` is never
executed. -/
theorem no_empty_buffer_overflow {K B E Err : Type} [DecidableEq K]
    (ops : BatchOps B E) (keyOf : E → K) (env : FlushEnv K Err)
    (hfresh : ∀ (b : B) (e2 : E), (ops.push (ops.fresh b) e2).2 = none)
    (hrej : ∀ (b : B) (e2 : E) (b2 : B) (r2 : E),
      ops.push b e2 = (b2, some r2) → r2 = e2) :
    ∀ (fuel : Nat) (s : SinkState K B E) (cnt : Nat) (ds : List (DispRec K B)),
      SinkWf keyOf s →
      ∀ ds2, pollFlushAux ops keyOf env fuel s cnt ds ≠ FlushOut.unreach ds2 := by
  intro fuel
  induction fuel with
  | zero =>
    intro s cnt ds _ ds2 h
    simp [pollFlushAux] at h
  | succ fuel ih =>
    intro s cnt ds hwf ds2 h
    rw [pollFlushAux] at h
    by_cases hq : s.buffer.isNone && s.partitions.isEmpty
    · rw [if_pos hq] at h
      dsimp only at h
      split at h <;> cases h
    · rw [if_neg hq] at h
      split at h
      · rename_i heqscan
        exact readyScan_ne_none ops env s.closing s.lingers s.inFlightMap
          s.partitions (fun k hk => hwf.linger_cover k hk) heqscan
      · rename_i readyKs heqscan
        have hknd : readyKs.Nodup :=
          readyScan_nodup ops env s.closing s.lingers s.inFlightMap
            s.partitions readyKs hwf.parts_nd heqscan
        have hksub :=
          readyScan_subset ops env s.closing s.lingers s.inFlightMap
            s.partitions readyKs heqscan
        obtain ⟨hnoroll, hok⟩ :=
          dispatchLoop_wf ops env keyOf readyKs s cnt false [] hknd hksub hwf
        split at h
        · rename_i newDs heqloop
          exact hnoroll newDs heqloop
        · rename_i e newDs heqloop
          cases h
        · rename_i s3 cnt2 consumed newDs heqloop
          obtain ⟨hwf3, hbuf3⟩ := hok s3 cnt2 consumed newDs heqloop
          split at h
          · exact ih s3 cnt2 (ds ++ newDs) hwf3 ds2 h
          · dsimp only at h
            have hwfg : SinkWf keyOf (gcInFlight env s3) := gcInFlight_wf env s3 hwf3
            split at h
            · rename_i kitem heqbuf
              split at h
              · simp [flushBottom] at h
              · rename_i hkm
                have hkeq : kitem.1 = keyOf kitem.2 := hwfg.buffer_key kitem heqbuf
                have hlook : alistLookup (keyOf kitem.2)
                    ({ gcInFlight env s3 with buffer := none } :
                      SinkState K B E).partitions = none := by
                  rw [alistLookup_eq_none]
                  intro hc
                  apply hkm
                  simp only [keyMem, decide_eq_true_eq]
                  exact hkeq ▸ hc
                have hnobuf : (start_send ops keyOf
                    { gcInFlight env s3 with buffer := none } kitem.2).buffer = none :=
                  start_send_fresh_no_overflow ops keyOf _ kitem.2 hfresh hlook
                split at h
                · rename_i hsome
                  rw [hnobuf] at hsome
                  cases hsome
                · rename_i hsome
                  have hwf4 : SinkWf keyOf (start_send ops keyOf
                      { gcInFlight env s3 with buffer := none } kitem.2) := by
                    refine start_send_wf ops keyOf _ kitem.2 hrej ?_
                    refine ⟨hwfg.parts_nd, hwfg.linger_cover, ?_⟩
                    intro p hp
                    cases hp
                  exact ih _ cnt2 (ds ++ newDs) hwf4 ds2 h
            · rename_i heqbuf
              simp [flushBottom] at h

/-- Witness for C8: from the well-formed state holding a full one-event
batch and a buffered overflow event, `poll_flush` does not reach a panic. -/
theorem no_empty_buffer_overflow_witness :
    (∀ (b : VB Nat) (e2 : Nat), ((vecOps Nat 1).push ((vecOps Nat 1).fresh b) e2).2 = none) ∧
      (∀ (b : VB Nat) (e2 : Nat) (b2 : VB Nat) (r2 : Nat),
        (vecOps Nat 1).push b e2 = (b2, some r2) → r2 = e2) ∧
      (∀ ds2, pollFlushAux (vecOps Nat 1) natKey envIdle 5
          { batch := vbEmpty, buffer := some (0, 5),
            partitions := [(0, { items := [7], wasFullFlag := true })],
            lingers := [0], inFlightMap := none, closing := false, seqHead := 0,
            svcInFlight := [], ack := initAck } 0 [] ≠ FlushOut.unreach ds2) := by
  have hfresh : ∀ (b : VB Nat) (e2 : Nat),
      ((vecOps Nat 1).push ((vecOps Nat 1).fresh b) e2).2 = none := by
    intro b e2
    rfl
  have hrej : ∀ (b : VB Nat) (e2 : Nat) (b2 : VB Nat) (r2 : Nat),
      (vecOps Nat 1).push b e2 = (b2, some r2) → r2 = e2 := by
    intro b e2 b2 r2 hp
    simp only [vecOps] at hp
    split at hp
    · cases hp
    · injection hp with h1 h2
      injection h2 with h3
      exact h3.symm
  refine ⟨hfresh, hrej, ?_⟩
  exact no_empty_buffer_overflow (vecOps Nat 1) natKey envIdle hfresh hrej 5 _ 0 []
    ⟨by decide, by decide, by intro p hp; cases hp; rfl⟩

theorem dispatchLoop_fail_source {K B E Err : Type} [DecidableEq K]
    (ops : BatchOps B E) (env : FlushEnv K Err) :
    ∀ (readyKs : List K) (s : SinkState K B E) (cnt : Nat) (consumed : Bool)
      (ds : List (DispRec K B)) (e : Err) (ds2 : List (DispRec K B)),
      dispatchLoop ops env readyKs s cnt consumed ds = LoopOut.fail e ds2 →
      ∃ n, env.svcReady n = SvcPoll.readyErr e := by
  intro readyKs
  induction readyKs with
  | nil =>
    intro s cnt consumed ds e ds2 h
    cases h
  | cons k rest ih =>
    intro s cnt consumed ds e ds2 h
    simp only [dispatchLoop] at h
    split at h
    · rename_i e2 hsvc
      injection h with h1 h2
      subst h1
      exact ⟨cnt, hsvc⟩
    · cases h
    · rename_i hsvc
      split at h
      · cases h
      · rename_i b parts hrem
        exact ih _ _ _ _ _ _ h

theorem pollFlush_fail_source {K B E Err : Type} [DecidableEq K]
    (ops : BatchOps B E) (keyOf : E → K) (env : FlushEnv K Err) :
    ∀ (fuel : Nat) (s : SinkState K B E) (cnt : Nat) (ds : List (DispRec K B))
      (e : Err) (ds2 : List (DispRec K B)),
      pollFlushAux ops keyOf env fuel s cnt ds = FlushOut.fail e ds2 →
      ∃ n, env.svcReady n = SvcPoll.readyErr e := by
  intro fuel
  induction fuel with
  | zero =>
    intro s cnt ds e ds2 h
    simp [pollFlushAux] at h
  | succ fuel ih =>
    intro s cnt ds e ds2 h
    rw [pollFlushAux] at h
    by_cases hq : s.buffer.isNone && s.partitions.isEmpty
    · rw [if_pos hq] at h
      dsimp only at h
      split at h <;> cases h
    · rw [if_neg hq] at h
      split at h
      · cases h
      · rename_i readyKs heqscan
        split at h
        · cases h
        · rename_i e2 newDs heqloop
          injection h with h1 h2
          exact h1 ▸ dispatchLoop_fail_source ops env readyKs s cnt false [] e2 newDs heqloop
        · rename_i s3 cnt2 consumed newDs heqloop
          split at h
          · exact ih s3 cnt2 (ds ++ newDs) e ds2 h
          · dsimp only at h
            split at h
            · rename_i kitem heqbuf
              split at h
              · simp [flushBottom] at h
              · split at h
                · cases h
                · exact ih _ cnt2 (ds ++ newDs) e ds2 h
            · simp [flushBottom] at h

/-- **C6** (dispatch errors are not fatal).  A service future that resolves
`Err` makes the spawned task resolve the aggregate finalizers with
`Errored` and still send `(seqno, item_count)` over its completion channel,
so ordered ack accounting advances across any mix of successes and
failures; and the only error `poll_flush` ever surfaces is one answered by
the downstream service to a `poll_ready` call. -/
theorem dispatch_error_nonfatal {K B E Err : Type} [DecidableEq K]
    (ops : BatchOps B E) (keyOf : E → K) (env : FlushEnv K Err) :
    (∀ (E2 : Type) (err : E2) (seqno n : Nat) (alive : Bool),
        (spawnedCall (Except.error err) seqno n alive).status =
            EventStatus.Errored ∧
          (spawnedCall (Except.error err) seqno n alive).msg = (seqno, n)) ∧
      (∀ (fuel : Nat) (s : SinkState K B E) (cnt : Nat)
          (ds : List (DispRec K B)) (e : Err) (ds2 : List (DispRec K B)),
        pollFlushAux ops keyOf env fuel s cnt ds = FlushOut.fail e ds2 →
        ∃ n, env.svcReady n = SvcPoll.readyErr e) :=
  ⟨fun _ _ _ _ _ => ⟨rfl, rfl⟩, pollFlush_fail_source ops keyOf env⟩

/-- A witness environment whose service always answers `Ready(Err(()))`. -/
def envErr : FlushEnv Nat Unit :=
  { linger := fun _ => false, taskDone := fun _ => false,
    svcReady := fun _ => SvcPoll.readyErr () }

/-- A witness state with one dispatchable (full) partition. -/
def sOnePart : SinkState Nat (VB Nat) Nat :=
  { batch := vbEmpty, buffer := none,
    partitions := [(0, { items := [7], wasFullFlag := true })],
    lingers := [0], inFlightMap := none, closing := false, seqHead := 0,
    svcInFlight := [], ack := initAck }

/-- Witness for C6: the service-ready error surfaces from `poll_flush`, and
it indeed came from a `poll_ready` answer. -/
theorem dispatch_error_nonfatal_witness :
    pollFlushAux (vecOps Nat 1) natKey envErr 2 sOnePart 0 [] =
        FlushOut.fail () [] ∧
      (∃ n, envErr.svcReady n = SvcPoll.readyErr ()) :=
  ⟨rfl, (dispatch_error_nonfatal (vecOps Nat 1) natKey envErr).2 2 sOnePart 0 []
    () [] rfl⟩

/-! ## Per-partition dispatch ordering (ordered mode)

The ordered-mode guarantee is stated over driver traces: every dispatch in
the trace is tagged with the index of the driver operation that performed
it, and for any two consecutive dispatches of the same partition key, the
environment active at the second dispatch had already observed the task of
the first as complete. -/

/-- The seqno of the most recent dispatch for key `k` in a tagged log. -/
def lastSeqFor {K B : Type} [DecidableEq K] (k : K)
    (log : List (Nat × DispRec K B)) : Option Nat :=
  ((log.filter (fun e => decide (e.2.key = k))).map (fun e => e.2.seqno)).getLast?

/-- The flush environment active at operation index `i` of a driver
program, if that operation is a flush. -/
def envTaskAt {K B E Err : Type} (prog : List (DriverOp K B E Err))
    (i : Nat) : Option (FlushEnv K Err) :=
  match prog.get? i with
  | some (DriverOp.flush env _) => some env
  | _ => none

/-- Per-partition gating of a tagged dispatch log: for every key, along the
subsequence of dispatches of that key, each dispatch was performed by a
flush whose environment had observed the task of the preceding dispatch for
that key as complete — the downstream service never sees a new batch for a
partition while the previous one is unresolved. -/
def GatedLog {K B E Err : Type} [DecidableEq K]
    (prog : List (DriverOp K B E Err)) (log : List (Nat × DispRec K B)) : Prop :=
  ∀ k : K, List.Chain'
    (fun d1 d2 => ∃ env2, envTaskAt prog d2.1 = some env2 ∧
      env2.taskDone d1.2.seqno = true)
    (log.filter (fun e => decide (e.2.key = k)))

theorem lastSeqFor_append {K B : Type} [DecidableEq K] (k : K)
    (log : List (Nat × DispRec K B)) (idx : Nat) (d : DispRec K B) :
    lastSeqFor k (log ++ [(idx, d)]) =
      if d.key = k then some d.seqno else lastSeqFor k log := by
  unfold lastSeqFor
  rw [List.filter_append]
  by_cases h : d.key = k
  · have hf : List.filter (fun e => decide (e.2.key = k)) [(idx, d)] = [(idx, d)] := by
      simp [h]
    rw [hf, List.map_append, if_pos h]
    exact List.getLast?_concat _
  · have hf : List.filter (fun e => decide (e.2.key = k)) [(idx, d)] = [] := by
      simp [h]
    rw [hf, List.append_nil, if_neg h]

theorem GatedLog_append {K B E Err : Type} [DecidableEq K]
    {prog : List (DriverOp K B E Err)} {log : List (Nat × DispRec K B)}
    {idx : Nat} {d : DispRec K B} {env2 : FlushEnv K Err}
    (hg : GatedLog prog log) (henv : envTaskAt prog idx = some env2)
    (hdone : ∀ seq, lastSeqFor d.key log = some seq →
      env2.taskDone seq = true) :
    GatedLog prog (log ++ [(idx, d)]) := by
  intro k
  rw [List.filter_append]
  by_cases hk : d.key = k
  · have hf : List.filter (fun e => decide (e.2.key = k)) [(idx, d)] = [(idx, d)] := by
      simp [hk]
    rw [hf]
    refine List.Chain'.append (hg k) (List.chain'_singleton _) ?_
    intro x hx y hy
    simp only [List.head?_cons, Option.mem_def, Option.some.injEq] at hy
    subst hy
    refine ⟨env2, henv, ?_⟩
    apply hdone
    unfold lastSeqFor
    rw [hk, List.getLast?_map]
    simp only [Option.mem_def] at hx
    rw [hx]
    rfl
  · have hf : List.filter (fun e => decide (e.2.key = k)) [(idx, d)] = [] := by
      simp [hk]
    rw [hf, List.append_nil]
    exact hg k

/-- Invariant tying the ordered-mode `in_flight` map to the dispatch log:
its keys are distinct, every stored handle is the handle of the most recent
dispatch for its key, and a key with a past dispatch but no stored handle
had its handle observed complete (`D`) before removal. -/
structure OrdInv {K B : Type} [DecidableEq K] (D : Nat → Prop)
    (log : List (Nat × DispRec K B)) (m : List (K × Nat)) : Prop where
  keys_nd : (keysOf m).Nodup
  last_eq : ∀ p ∈ m, lastSeqFor p.1 log = some p.2
  gone_done : ∀ k seq, lastSeqFor k log = some seq →
    alistLookup k m = none → D seq

theorem OrdInv.mono {K B : Type} [DecidableEq K] {D1 D2 : Nat → Prop}
    {log : List (Nat × DispRec K B)} {m : List (K × Nat)}
    (h : ∀ seq, D1 seq → D2 seq) (inv : OrdInv D1 log m) : OrdInv D2 log m :=
  ⟨inv.keys_nd, inv.last_eq,
    fun k seq h1 h2 => h seq (inv.gone_done k seq h1 h2)⟩

theorem OrdInv.dispatch {K B : Type} [DecidableEq K] {D : Nat → Prop}
    {log : List (Nat × DispRec K B)} {m : List (K × Nat)}
    (inv : OrdInv D log m) (k : K) (seq : Nat) (idx : Nat) (b : B) (n : Nat) :
    OrdInv D (log ++ [(idx, ⟨k, seq, b, n⟩)]) (alistInsert k seq m) := by
  refine ⟨alistInsert_keys_nodup inv.keys_nd, ?_, ?_⟩
  · intro p hp
    rcases (alistInsert_mem_nodup inv.keys_nd).mp hp with rfl | ⟨hpm, hpk⟩
    · rw [lastSeqFor_append, if_pos rfl]
    · rw [lastSeqFor_append]
      rw [if_neg (fun hc => hpk hc.symm)]
      exact inv.last_eq p hpm
  · intro k2 seq2 hlast hlook
    have hne : k2 ≠ k := by
      rintro rfl
      rw [alistLookup_insert_self] at hlook
      cases hlook
    rw [lastSeqFor_append, if_neg (fun hc => hne hc.symm)] at hlast
    rw [alistLookup_insert_ne hne] at hlook
    exact inv.gone_done k2 seq2 hlast hlook

theorem OrdInv.gc {K B : Type} [DecidableEq K] {D : Nat → Prop}
    {log : List (Nat × DispRec K B)} {m : List (K × Nat)}
    (inv : OrdInv D log m) (f : K × Nat → Bool)
    (hremoved : ∀ p ∈ m, f p = false → D p.2) :
    OrdInv D log (m.filter f) := by
  refine ⟨?_, ?_, ?_⟩
  · exact inv.keys_nd.sublist ((List.filter_sublist m).map Prod.fst)
  · exact fun p hp => inv.last_eq p (List.mem_of_mem_filter hp)
  · intro k2 seq2 hlast hlook
    cases hm : alistLookup k2 m with
    | none => exact inv.gone_done k2 seq2 hlast hm
    | some s0 =>
      have hmem : (k2, s0) ∈ m := alistLookup_mem hm
      have hseq : seq2 = s0 :=
        Option.some.inj (hlast ▸ inv.last_eq (k2, s0) hmem)
      by_cases hfp : f (k2, s0) = true
      · exfalso
        have : (k2, s0) ∈ m.filter f := List.mem_filter.mpr ⟨hmem, hfp⟩
        have : k2 ∈ keysOf (m.filter f) := List.mem_map_of_mem Prod.fst this
        exact (alistLookup_eq_none.mp hlook) this
      · have : f (k2, s0) = false := by
          cases hfv : f (k2, s0)
          · rfl
          · exact absurd hfv hfp
        exact hseq ▸ hremoved (k2, s0) hmem this

/-- Ready partitions pass the ordered-mode gate: any stored handle for a
collected key has a completed task. -/
theorem readyScan_gate {K B E Err : Type} [DecidableEq K] (ops : BatchOps B E)
    (env : FlushEnv K Err) (closing : Bool) (lingers : List K)
    (mp : List (K × Nat)) :
    ∀ (parts : List (K × B)) (ks : List K),
      readyScan ops env closing lingers (some mp) parts = some ks →
      ∀ k ∈ ks, ∀ seq, alistLookup k mp = some seq →
        env.taskDone seq = true := by
  intro parts
  induction parts with
  | nil =>
    intro ks h k hk
    simp only [readyScan, Option.some.injEq] at h
    subst h
    cases hk
  | cons p rest ih =>
    obtain ⟨k0, b0⟩ := p
    intro ks h k hk seq hseq
    simp only [readyScan] at h
    split at h
    · cases h
    · rename_i hchk
      cases hrec : readyScan ops env closing lingers (some mp) rest with
      | none => rw [hrec] at h; cases h
      | some ks2 =>
        rw [hrec] at h
        simp only [Option.map_some', Option.some.injEq] at h
        subst h
        rcases List.mem_cons.mp hk with rfl | hk
        · have hRHS := (partitionReadyChk_some_iff hchk).mp rfl
          have hgate := (gateVal_gateFor_iff (some mp) env.taskDone k).mp hRHS.2
          exact hgate mp seq rfl hseq
        · exact ih ks2 hrec k hk seq hseq
    · exact ih ks h k hk seq hseq

theorem dispatchLoop_gated {K B E Err : Type} [DecidableEq K]
    (ops : BatchOps B E) (env : FlushEnv K Err)
    (prog : List (DriverOp K B E Err)) (idx : Nat)
    (henv : envTaskAt prog idx = some env)
    (log0 : List (Nat × DispRec K B)) :
    ∀ (readyKs : List K) (s : SinkState K B E) (cnt : Nat) (consumed : Bool)
      (ds : List (DispRec K B)) (m : List (K × Nat)),
      s.inFlightMap = some m →
      readyKs.Nodup →
      (∀ k ∈ readyKs, ∀ seq, alistLookup k m = some seq →
        env.taskDone seq = true) →
      (keysOf s.partitions).Nodup →
      OrdInv (fun seq => env.taskDone seq = true)
        (log0 ++ ds.map (fun d => (idx, d))) m →
      GatedLog prog (log0 ++ ds.map (fun d => (idx, d))) →
      (∀ s2 cnt2 c2 ds2,
        dispatchLoop ops env readyKs s cnt consumed ds =
          LoopOut.ok s2 cnt2 c2 ds2 →
        ∃ m2, s2.inFlightMap = some m2 ∧
          OrdInv (fun seq => env.taskDone seq = true)
            (log0 ++ ds2.map (fun d => (idx, d))) m2 ∧
          GatedLog prog (log0 ++ ds2.map (fun d => (idx, d))) ∧
          (keysOf s2.partitions).Nodup) ∧
      (∀ e ds2,
        dispatchLoop ops env readyKs s cnt consumed ds = LoopOut.fail e ds2 →
        GatedLog prog (log0 ++ ds2.map (fun d => (idx, d)))) ∧
      (∀ ds2,
        dispatchLoop ops env readyKs s cnt consumed ds = LoopOut.unreach ds2 →
        GatedLog prog (log0 ++ ds2.map (fun d => (idx, d)))) := by
  intro readyKs
  induction readyKs with
  | nil =>
    intro s cnt consumed ds m hm hnd hgate hpnd inv hg
    refine ⟨?_, ?_, ?_⟩
    · intro s2 cnt2 c2 ds2 h
      cases h
      exact ⟨m, hm, inv, hg, hpnd⟩
    · intro e ds2 h
      cases h
    · intro ds2 h
      cases h
  | cons k rest ih =>
    intro s cnt consumed ds m hm hnd hgate hpnd inv hg
    rw [List.nodup_cons] at hnd
    cases hsvc : env.svcReady cnt with
    | readyErr e =>
      have hstep : dispatchLoop ops env (k :: rest) s cnt consumed ds =
          LoopOut.fail e ds := by
        simp only [dispatchLoop, hsvc]
      refine ⟨?_, ?_, ?_⟩
      · intro s2 cnt2 c2 ds2 h
        rw [hstep] at h
        cases h
      · intro e2 ds2 h
        rw [hstep] at h
        cases h
        exact hg
      · intro ds2 h
        rw [hstep] at h
        cases h
    | notReady =>
      have hstep : dispatchLoop ops env (k :: rest) s cnt consumed ds =
          LoopOut.ok s (cnt + 1) consumed ds := by
        simp only [dispatchLoop, hsvc]
      refine ⟨?_, ?_, ?_⟩
      · intro s2 cnt2 c2 ds2 h
        rw [hstep] at h
        cases h
        exact ⟨m, hm, inv, hg, hpnd⟩
      · intro e2 ds2 h
        rw [hstep] at h
        cases h
      · intro ds2 h
        rw [hstep] at h
        cases h
    | ready =>
      cases hrem : alistRemove k s.partitions with
      | none =>
        have hstep : dispatchLoop ops env (k :: rest) s cnt consumed ds =
            LoopOut.unreach ds := by
          simp only [dispatchLoop, hsvc, hrem]
        refine ⟨?_, ?_, ?_⟩
        · intro s2 cnt2 c2 ds2 h
          rw [hstep] at h
          cases h
        · intro e2 ds2 h
          rw [hstep] at h
          cases h
        · intro ds2 h
          rw [hstep] at h
          cases h
          exact hg
      | some pr =>
        obtain ⟨b, parts⟩ := pr
        have hstep : dispatchLoop ops env (k :: rest) s cnt consumed ds =
            dispatchLoop ops env rest
              { s with
                partitions := parts
                lingers := s.lingers.filter (fun k2 => decide (k2 ≠ k))
                seqHead := s.seqHead + 1
                svcInFlight := s.svcInFlight ++ [(s.seqHead, ops.num_items b)]
                inFlightMap := some (alistInsert k s.seqHead m) }
              (cnt + 1) true (ds ++ [⟨k, s.seqHead, b, ops.num_items b⟩]) := by
          simp only [dispatchLoop, hsvc, hrem, hm]
        have hlogeq :
            log0 ++ ((ds ++ [(⟨k, s.seqHead, b, ops.num_items b⟩ : DispRec K B)]).map
              (fun d => (idx, d))) =
            (log0 ++ ds.map (fun d => (idx, d))) ++
              [(idx, (⟨k, s.seqHead, b, ops.num_items b⟩ : DispRec K B))] := by
          simp
        have hdone : ∀ seq,
            lastSeqFor k (log0 ++ ds.map (fun d => (idx, d))) = some seq →
            env.taskDone seq = true := by
          intro seq hlast
          cases hlk : alistLookup k m with
          | some s0 =>
            have hle := inv.last_eq (k, s0) (alistLookup_mem hlk)
            have hseq : seq = s0 := Option.some.inj (hlast ▸ hle)
            exact hseq ▸ hgate k (List.mem_cons_self _ _) s0 hlk
          | none =>
            exact inv.gone_done k seq hlast hlk
        have inv2 : OrdInv (fun seq => env.taskDone seq = true)
            (log0 ++ ((ds ++ [(⟨k, s.seqHead, b, ops.num_items b⟩ : DispRec K B)]).map
              (fun d => (idx, d))))
            (alistInsert k s.seqHead m) := by
          rw [hlogeq]
          exact inv.dispatch k s.seqHead idx b (ops.num_items b)
        have hg2 : GatedLog prog
            (log0 ++ ((ds ++ [(⟨k, s.seqHead, b, ops.num_items b⟩ : DispRec K B)]).map
              (fun d => (idx, d)))) := by
          rw [hlogeq]
          exact GatedLog_append hg henv hdone
        have hgate2 : ∀ k2 ∈ rest, ∀ seq,
            alistLookup k2 (alistInsert k s.seqHead m) = some seq →
            env.taskDone seq = true := by
          intro k2 hk2 seq hlk
          have hne : k2 ≠ k := by
            rintro rfl
            exact hnd.1 hk2
          rw [alistLookup_insert_ne hne] at hlk
          exact hgate k2 (List.mem_cons_of_mem _ hk2) seq hlk
        have hpnd2 : (keysOf parts).Nodup := (alistRemove_keys hpnd hrem).1
        obtain ⟨ihok, ihfail, ihunr⟩ := ih
          { s with
            partitions := parts
            lingers := s.lingers.filter (fun k2 => decide (k2 ≠ k))
            seqHead := s.seqHead + 1
            svcInFlight := s.svcInFlight ++ [(s.seqHead, ops.num_items b)]
            inFlightMap := some (alistInsert k s.seqHead m) }
          (cnt + 1) true
          (ds ++ [(⟨k, s.seqHead, b, ops.num_items b⟩ : DispRec K B)])
          (alistInsert k s.seqHead m) rfl hnd.2 hgate2 hpnd2 inv2 hg2
        refine ⟨?_, ?_, ?_⟩
        · intro s2 cnt2 c2 ds2 h
          rw [hstep] at h
          exact ihok s2 cnt2 c2 ds2 h
        · intro e2 ds2 h
          rw [hstep] at h
          exact ihfail e2 ds2 h
        · intro ds2 h
          rw [hstep] at h
          exact ihunr ds2 h

theorem logcat {K B : Type} (log0 : List (Nat × DispRec K B)) (idx : Nat)
    (ds newDs : List (DispRec K B)) :
    log0 ++ ((ds ++ newDs).map (fun d => (idx, d))) =
      (log0 ++ ds.map (fun d => (idx, d))) ++ newDs.map (fun d => (idx, d)) := by
  simp

theorem start_send_inFlightMap {K B E : Type} [DecidableEq K]
    (ops : BatchOps B E) (keyOf : E → K) (s : SinkState K B E) (item : E) :
    (start_send ops keyOf s item).inFlightMap = s.inFlightMap := rfl

theorem pollFlushAux_gated {K B E Err : Type} [DecidableEq K]
    (ops : BatchOps B E) (keyOf : E → K) (env : FlushEnv K Err)
    (prog : List (DriverOp K B E Err)) (idx : Nat)
    (henv : envTaskAt prog idx = some env)
    (log0 : List (Nat × DispRec K B)) :
    ∀ (fuel : Nat) (s : SinkState K B E) (cnt : Nat) (ds : List (DispRec K B))
      (m : List (K × Nat)),
      s.inFlightMap = some m →
      (keysOf s.partitions).Nodup →
      OrdInv (fun seq => env.taskDone seq = true)
        (log0 ++ ds.map (fun d => (idx, d))) m →
      GatedLog prog (log0 ++ ds.map (fun d => (idx, d))) →
      (∀ s2 ds2,
        (pollFlushAux ops keyOf env fuel s cnt ds = FlushOut.readyOk s2 ds2 ∨
          pollFlushAux ops keyOf env fuel s cnt ds = FlushOut.pend s2 ds2) →
        ∃ m2, s2.inFlightMap = some m2 ∧
          OrdInv (fun seq => env.taskDone seq = true)
            (log0 ++ ds2.map (fun d => (idx, d))) m2 ∧
          GatedLog prog (log0 ++ ds2.map (fun d => (idx, d))) ∧
          (keysOf s2.partitions).Nodup) ∧
      (∀ e ds2,
        pollFlushAux ops keyOf env fuel s cnt ds = FlushOut.fail e ds2 →
        GatedLog prog (log0 ++ ds2.map (fun d => (idx, d)))) ∧
      (∀ ds2,
        (pollFlushAux ops keyOf env fuel s cnt ds = FlushOut.fuelOut ds2 ∨
          pollFlushAux ops keyOf env fuel s cnt ds = FlushOut.unreach ds2) →
        GatedLog prog (log0 ++ ds2.map (fun d => (idx, d)))) := by
  intro fuel
  induction fuel with
  | zero =>
    intro s cnt ds m hm hpnd inv hg
    refine ⟨?_, ?_, ?_⟩
    · intro s2 ds2 h
      rcases h with h | h <;> cases h
    · intro e ds2 h
      cases h
    · intro ds2 h
      rcases h with h | h
      · cases h
        exact hg
      · cases h
  | succ fuel ih =>
    intro s cnt ds m hm hpnd inv hg
    by_cases hq : (s.buffer.isNone && s.partitions.isEmpty) = true
    · have hstep : pollFlushAux ops keyOf env (fuel + 1) s cnt ds =
          (if (drainCompletions env.taskDone s.svcInFlight s.ack).1.isEmpty
           then FlushOut.readyOk
             { s with
               svcInFlight := (drainCompletions env.taskDone s.svcInFlight s.ack).1
               ack := (drainCompletions env.taskDone s.svcInFlight s.ack).2 } ds
           else FlushOut.pend
             { s with
               svcInFlight := (drainCompletions env.taskDone s.svcInFlight s.ack).1
               ack := (drainCompletions env.taskDone s.svcInFlight s.ack).2 } ds) := by
        rw [pollFlushAux, if_pos hq]
      refine ⟨?_, ?_, ?_⟩
      · intro s2 ds2 h
        rw [hstep] at h
        rcases h with h | h <;> split at h <;> cases h <;>
          exact ⟨m, hm, inv, hg, hpnd⟩
      · intro e ds2 h
        rw [hstep] at h
        split at h <;> cases h
      · intro ds2 h
        rw [hstep] at h
        rcases h with h | h <;> split at h <;> cases h
    · have heq0 : pollFlushAux ops keyOf env (fuel + 1) s cnt ds =
          match readyScan ops env s.closing s.lingers s.inFlightMap s.partitions with
          | none => FlushOut.unreach ds
          | some readyKs =>
            match dispatchLoop ops env readyKs s cnt false [] with
            | LoopOut.unreach newDs => FlushOut.unreach (ds ++ newDs)
            | LoopOut.fail e newDs => FlushOut.fail e (ds ++ newDs)
            | LoopOut.ok s2 cnt2 consumed newDs =>
              if consumed then
                pollFlushAux ops keyOf env fuel s2 cnt2 (ds ++ newDs)
              else
                let s3 := gcInFlight env s2
                match s3.buffer with
                | some kitem =>
                  if keyMem kitem.1 (keysOf s3.partitions) then
                    flushBottom env s3 (ds ++ newDs)
                  else
                    let s4 := start_send ops keyOf { s3 with buffer := none } kitem.2
                    if s4.buffer.isSome then FlushOut.unreach (ds ++ newDs)
                    else pollFlushAux ops keyOf env fuel s4 cnt2 (ds ++ newDs)
                | none => flushBottom env s3 (ds ++ newDs) := by
        rw [pollFlushAux, if_neg hq]
      cases hscan : readyScan ops env s.closing s.lingers s.inFlightMap s.partitions with
      | none =>
        have hstep : pollFlushAux ops keyOf env (fuel + 1) s cnt ds =
            FlushOut.unreach ds := by
          rw [heq0, hscan]
        refine ⟨?_, ?_, ?_⟩
        · intro s2 ds2 h
          rw [hstep] at h
          rcases h with h | h <;> cases h
        · intro e ds2 h
          rw [hstep] at h
          cases h
        · intro ds2 h
          rw [hstep] at h
          rcases h with h | h
          · cases h
          · cases h
            exact hg
      | some readyKs =>
        have hscan2 : readyScan ops env s.closing s.lingers (some m) s.partitions =
            some readyKs := hm ▸ hscan
        have hknd : readyKs.Nodup :=
          readyScan_nodup ops env s.closing s.lingers s.inFlightMap
            s.partitions readyKs hpnd hscan
        have hgateKs : ∀ k ∈ readyKs, ∀ seq, alistLookup k m = some seq →
            env.taskDone seq = true :=
          readyScan_gate ops env s.closing s.lingers m s.partitions readyKs hscan2
        have hg0 : GatedLog prog
            ((log0 ++ ds.map (fun d => (idx, d))) ++
              ([] : List (DispRec K B)).map (fun d => (idx, d))) := by
          simpa using hg
        have inv0 : OrdInv (fun seq => env.taskDone seq = true)
            ((log0 ++ ds.map (fun d => (idx, d))) ++
              ([] : List (DispRec K B)).map (fun d => (idx, d))) m := by
          simpa using inv
        obtain ⟨dlok, dlfail, dlunr⟩ :=
          dispatchLoop_gated ops env prog idx henv
            (log0 ++ ds.map (fun d => (idx, d))) readyKs s cnt false [] m
            hm hknd hgateKs hpnd inv0 hg0
        have heq1 : pollFlushAux ops keyOf env (fuel + 1) s cnt ds =
            match dispatchLoop ops env readyKs s cnt false [] with
            | LoopOut.unreach newDs => FlushOut.unreach (ds ++ newDs)
            | LoopOut.fail e newDs => FlushOut.fail e (ds ++ newDs)
            | LoopOut.ok s2 cnt2 consumed newDs =>
              if consumed then
                pollFlushAux ops keyOf env fuel s2 cnt2 (ds ++ newDs)
              else
                let s3 := gcInFlight env s2
                match s3.buffer with
                | some kitem =>
                  if keyMem kitem.1 (keysOf s3.partitions) then
                    flushBottom env s3 (ds ++ newDs)
                  else
                    let s4 := start_send ops keyOf { s3 with buffer := none } kitem.2
                    if s4.buffer.isSome then FlushOut.unreach (ds ++ newDs)
                    else pollFlushAux ops keyOf env fuel s4 cnt2 (ds ++ newDs)
                | none => flushBottom env s3 (ds ++ newDs) := by
          rw [heq0, hscan]
        cases hloop : dispatchLoop ops env readyKs s cnt false [] with
        | unreach newDs =>
          have hstep : pollFlushAux ops keyOf env (fuel + 1) s cnt ds =
              FlushOut.unreach (ds ++ newDs) := by
            rw [heq1, hloop]
          refine ⟨?_, ?_, ?_⟩
          · intro s2 ds2 h
            rw [hstep] at h
            rcases h with h | h <;> cases h
          · intro e ds2 h
            rw [hstep] at h
            cases h
          · intro ds2 h
            rw [hstep] at h
            rcases h with h | h
            · cases h
            · cases h
              rw [logcat]
              exact dlunr newDs hloop
        | fail e newDs =>
          have hstep : pollFlushAux ops keyOf env (fuel + 1) s cnt ds =
              FlushOut.fail e (ds ++ newDs) := by
            rw [heq1, hloop]
          refine ⟨?_, ?_, ?_⟩
          · intro s2 ds2 h
            rw [hstep] at h
            rcases h with h | h <;> cases h
          · intro e2 ds2 h
            rw [hstep] at h
            cases h
            rw [logcat]
            exact dlfail e newDs hloop
          · intro ds2 h
            rw [hstep] at h
            rcases h with h | h <;> cases h
        | ok s3 cnt2 consumed newDs =>
          obtain ⟨m2, hm2, inv2, hg2, hpnd2⟩ :=
            dlok s3 cnt2 consumed newDs hloop
          rw [← logcat] at inv2 hg2
          cases hcons : consumed with
          | true =>
            have hstep : pollFlushAux ops keyOf env (fuel + 1) s cnt ds =
                pollFlushAux ops keyOf env fuel s3 cnt2 (ds ++ newDs) := by
              rw [heq1, hloop]
              dsimp only
              rw [if_pos hcons]
            obtain ⟨ihok, ihfail, ihfo⟩ :=
              ih s3 cnt2 (ds ++ newDs) m2 hm2 hpnd2 inv2 hg2
            refine ⟨?_, ?_, ?_⟩
            · intro s2 ds2 h
              rw [hstep] at h
              exact ihok s2 ds2 h
            · intro e ds2 h
              rw [hstep] at h
              exact ihfail e ds2 h
            · intro ds2 h
              rw [hstep] at h
              exact ihfo ds2 h
          | false =>
            obtain ⟨hgp, hgl, hgb, hgbt, hgs, hgc, hgh⟩ := gcInFlight_fields env s3
            obtain ⟨m3, hm3, inv3⟩ : ∃ m3,
                (gcInFlight env s3).inFlightMap = some m3 ∧
                OrdInv (fun seq => env.taskDone seq = true)
                  (log0 ++ ((ds ++ newDs).map (fun d => (idx, d)))) m3 := by
              rw [gcInFlight, hm2]
              dsimp only
              by_cases hlen : s3.partitions.length < m2.length
              · rw [if_pos hlen]
                refine ⟨_, rfl, ?_⟩
                refine inv2.gc _ ?_
                intro p hp hfp
                simp only [Bool.or_eq_false_iff] at hfp
                have := hfp.2
                simpa using this
              · rw [if_neg hlen]
                exact ⟨m2, hm2, inv2⟩
            have hpnd3 : (keysOf (gcInFlight env s3).partitions).Nodup :=
              hgp ▸ hpnd2
            cases hbuf3 : (gcInFlight env s3).buffer with
            | some kitem =>
              by_cases hkm : keyMem kitem.1 (keysOf (gcInFlight env s3).partitions) = true
              · have hstep : pollFlushAux ops keyOf env (fuel + 1) s cnt ds =
                    flushBottom env (gcInFlight env s3) (ds ++ newDs) := by
                  rw [heq1, hloop]
                  dsimp only
                  rw [if_neg (by simp [hcons])]
                  simp only [hbuf3]
                  rw [if_pos hkm]
                refine ⟨?_, ?_, ?_⟩
                · intro s2 ds2 h
                  rw [hstep] at h
                  simp only [flushBottom] at h
                  rcases h with h | h
                  · cases h
                  · cases h
                    exact ⟨m3, hm3, inv3, hg2, hpnd3⟩
                · intro e ds2 h
                  rw [hstep] at h
                  simp only [flushBottom] at h
                  cases h
                · intro ds2 h
                  rw [hstep] at h
                  simp only [flushBottom] at h
                  rcases h with h | h <;> cases h
              · by_cases hs4 : (start_send ops keyOf
                    { gcInFlight env s3 with buffer := none } kitem.2).buffer.isSome = true
                · have hstep : pollFlushAux ops keyOf env (fuel + 1) s cnt ds =
                      FlushOut.unreach (ds ++ newDs) := by
                    rw [heq1, hloop]
                    dsimp only
                    rw [if_neg (by simp [hcons])]
                    simp only [hbuf3]
                    rw [if_neg hkm, if_pos hs4]
                  refine ⟨?_, ?_, ?_⟩
                  · intro s2 ds2 h
                    rw [hstep] at h
                    rcases h with h | h <;> cases h
                  · intro e ds2 h
                    rw [hstep] at h
                    cases h
                  · intro ds2 h
                    rw [hstep] at h
                    rcases h with h | h
                    · cases h
                    · cases h
                      exact hg2
                · have hstep : pollFlushAux ops keyOf env (fuel + 1) s cnt ds =
                      pollFlushAux ops keyOf env fuel
                        (start_send ops keyOf
                          { gcInFlight env s3 with buffer := none } kitem.2)
                        cnt2 (ds ++ newDs) := by
                    rw [heq1, hloop]
                    dsimp only
                    rw [if_neg (by simp [hcons])]
                    simp only [hbuf3]
                    rw [if_neg hkm, if_neg hs4]
                  have hm4 : (start_send ops keyOf
                      { gcInFlight env s3 with buffer := none } kitem.2).inFlightMap =
                      some m3 := by
                    rw [start_send_inFlightMap]
                    exact hm3
                  have hpnd4 : (keysOf (start_send ops keyOf
                      { gcInFlight env s3 with buffer := none } kitem.2).partitions).Nodup := by
                    simp only [start_send]
                    exact alistInsert_keys_nodup hpnd3
                  obtain ⟨ihok, ihfail, ihfo⟩ :=
                    ih _ cnt2 (ds ++ newDs) m3 hm4 hpnd4 inv3 hg2
                  refine ⟨?_, ?_, ?_⟩
                  · intro s2 ds2 h
                    rw [hstep] at h
                    exact ihok s2 ds2 h
                  · intro e ds2 h
                    rw [hstep] at h
                    exact ihfail e ds2 h
                  · intro ds2 h
                    rw [hstep] at h
                    exact ihfo ds2 h
            | none =>
              have hstep : pollFlushAux ops keyOf env (fuel + 1) s cnt ds =
                  flushBottom env (gcInFlight env s3) (ds ++ newDs) := by
                rw [heq1, hloop]
                dsimp only
                rw [if_neg (by simp [hcons])]
                simp only [hbuf3]
              refine ⟨?_, ?_, ?_⟩
              · intro s2 ds2 h
                rw [hstep] at h
                simp only [flushBottom] at h
                rcases h with h | h
                · cases h
                · cases h
                  exact ⟨m3, hm3, inv3, hg2, hpnd3⟩
              · intro e ds2 h
                rw [hstep] at h
                simp only [flushBottom] at h
                cases h
              · intro ds2 h
                rw [hstep] at h
                simp only [flushBottom] at h
                rcases h with h | h <;> cases h

/-- Seqnos whose tasks some flush environment before operation `idx`
observed complete. -/
def doneBy {K B E Err : Type} (prog : List (DriverOp K B E Err))
    (idx seq : Nat) : Prop :=
  ∃ i env2, i < idx ∧ envTaskAt prog i = some env2 ∧ env2.taskDone seq = true

theorem doneBy_mono {K B E Err : Type} (prog : List (DriverOp K B E Err))
    {idx seq : Nat} (h : doneBy prog idx seq) : doneBy prog (idx + 1) seq := by
  obtain ⟨i, env2, hi, h1, h2⟩ := h
  exact ⟨i, env2, Nat.lt_succ_of_lt hi, h1, h2⟩

theorem drop_cons_step {α : Type u} {l : List α} {n : Nat} {a : α}
    {rest : List α} (h : l.drop n = a :: rest) :
    l.drop (n + 1) = rest ∧ l.get? n = some a := by
  constructor
  · rw [← List.tail_drop, h]
    rfl
  · have h0 : (l.drop n).get? 0 = some a := by rw [h]; rfl
    rw [List.get?_eq_getElem?] at h0 ⊢
    rw [List.getElem?_drop] at h0
    simpa using h0

/-- Running a driver program in ordered mode preserves gating of the
accumulated dispatch log, given that task completion is stable across
successive flush environments. -/
theorem runOpsAux_gated {K B E Err : Type} [DecidableEq K]
    (ops : BatchOps B E) (keyOf : E → K) (prog : List (DriverOp K B E Err))
    (hmono : ∀ i j envi envj seq, i ≤ j → envTaskAt prog i = some envi →
      envTaskAt prog j = some envj → envi.taskDone seq = true →
      envj.taskDone seq = true) :
    ∀ (rest : List (DriverOp K B E Err)) (idx : Nat) (s : SinkState K B E)
      (log0 : List (Nat × DispRec K B)) (m : List (K × Nat)),
      prog.drop idx = rest →
      s.inFlightMap = some m →
      (keysOf s.partitions).Nodup →
      OrdInv (doneBy prog idx) log0 m →
      GatedLog prog log0 →
      GatedLog prog (log0 ++ (runOpsAux ops keyOf idx rest s).2) := by
  intro rest
  induction rest with
  | nil =>
    intro idx s log0 m _ _ _ _ hg
    simpa [runOpsAux] using hg
  | cons op rest2 ih =>
    intro idx s log0 m hdrop hm hpnd inv hg
    obtain ⟨hdrop2, hget⟩ := drop_cons_step hdrop
    cases op with
    | send item =>
      have hstep : runOpsAux ops keyOf idx (DriverOp.send item :: rest2) s =
          runOpsAux ops keyOf (idx + 1) rest2 (start_send ops keyOf s item) := rfl
      rw [hstep]
      refine ih (idx + 1) _ log0 m hdrop2 ?_ ?_ ?_ hg
      · rw [start_send_inFlightMap]
        exact hm
      · simp only [start_send]
        exact alistInsert_keys_nodup hpnd
      · exact inv.mono (fun seq => doneBy_mono prog)
    | flush env fuel =>
      have henv : envTaskAt prog idx = some env := by
        unfold envTaskAt
        rw [hget]
      have invNow : OrdInv (fun seq => env.taskDone seq = true) log0 m := by
        refine inv.mono ?_
        intro seq hd
        obtain ⟨i, envi, hi, h1, h2⟩ := hd
        exact hmono i idx envi env seq (Nat.le_of_lt hi) h1 henv h2
      have hg0 : GatedLog prog
          (log0 ++ ([] : List (DispRec K B)).map (fun d => (idx, d))) := by
        simpa using hg
      have inv0 : OrdInv (fun seq => env.taskDone seq = true)
          (log0 ++ ([] : List (DispRec K B)).map (fun d => (idx, d))) m := by
        simpa using invNow
      obtain ⟨pok, pfail, pfo⟩ :=
        pollFlushAux_gated ops keyOf env prog idx henv log0 fuel s 0 [] m
          hm hpnd inv0 hg0
      cases hres : pollFlushAux ops keyOf env fuel s 0 [] with
      | readyOk s2 ds =>
        obtain ⟨m2, hm2, inv2, hg2, hpnd2⟩ := pok s2 ds (Or.inl hres)
        have h2 : (runOpsAux ops keyOf idx (DriverOp.flush env fuel :: rest2) s).2 =
            ds.map (fun d => (idx, d)) ++
              (runOpsAux ops keyOf (idx + 1) rest2 s2).2 := by
          simp only [runOpsAux, hres]
        rw [h2, ← List.append_assoc]
        refine ih (idx + 1) s2 (log0 ++ ds.map (fun d => (idx, d))) m2
          hdrop2 hm2 hpnd2 ?_ hg2
        refine inv2.mono ?_
        intro seq hd
        exact ⟨idx, env, Nat.lt_succ_self idx, henv, hd⟩
      | pend s2 ds =>
        obtain ⟨m2, hm2, inv2, hg2, hpnd2⟩ := pok s2 ds (Or.inr hres)
        have h2 : (runOpsAux ops keyOf idx (DriverOp.flush env fuel :: rest2) s).2 =
            ds.map (fun d => (idx, d)) ++
              (runOpsAux ops keyOf (idx + 1) rest2 s2).2 := by
          simp only [runOpsAux, hres]
        rw [h2, ← List.append_assoc]
        refine ih (idx + 1) s2 (log0 ++ ds.map (fun d => (idx, d))) m2
          hdrop2 hm2 hpnd2 ?_ hg2
        refine inv2.mono ?_
        intro seq hd
        exact ⟨idx, env, Nat.lt_succ_self idx, henv, hd⟩
      | fail e ds =>
        have h2 : (runOpsAux ops keyOf idx (DriverOp.flush env fuel :: rest2) s).2 =
            ds.map (fun d => (idx, d)) := by
          simp only [runOpsAux, hres]
        rw [h2]
        exact pfail e ds hres
      | fuelOut ds =>
        have h2 : (runOpsAux ops keyOf idx (DriverOp.flush env fuel :: rest2) s).2 =
            ds.map (fun d => (idx, d)) := by
          simp only [runOpsAux, hres]
        rw [h2]
        exact pfo ds (Or.inl hres)
      | unreach ds =>
        have h2 : (runOpsAux ops keyOf idx (DriverOp.flush env fuel :: rest2) s).2 =
            ds.map (fun d => (idx, d)) := by
          simp only [runOpsAux, hres]
        rw [h2]
        exact pfo ds (Or.inr hres)

/-- **C5** (per-partition ordering).  With ordered mode enabled via
`PartitionBatchSink::ordered`, for every driver program and every partition
key `k`, consecutive dispatches for `k` in the resulting dispatch log are
gated: the flush that performed the later dispatch had observed the spawned
task of the earlier one as complete (task completion being stable across
environments), so the downstream service sees the batches of each partition
serially, in their enqueue order.  When ordered mode is off, `in_flight` is
`None` and the readiness gate degenerates to `true`, so no such per-key
gating is applied. -/
theorem per_partition_ordering {K B E Err : Type} [DecidableEq K]
    (ops : BatchOps B E) (keyOf : E → K) (b0 : B)
    (prog : List (DriverOp K B E Err))
    (hmono : ∀ i j envi envj seq, i ≤ j → envTaskAt prog i = some envi →
      envTaskAt prog j = some envj → envi.taskDone seq = true →
      envj.taskDone seq = true) :
    GatedLog prog (runOpsAux ops keyOf 0 prog (ordered (newSink b0))).2 ∧
      (∀ (done : Nat → Bool) (k : K), gateVal (gateFor none done k) = true) := by
  constructor
  · have base_inv : OrdInv (doneBy prog 0)
        ([] : List (Nat × DispRec K B)) ([] : List (K × Nat)) := by
      refine ⟨List.nodup_nil, ?_, ?_⟩
      · intro p hp
        cases hp
      · intro k seq hlast _
        simp [lastSeqFor] at hlast
    have base_g : GatedLog prog ([] : List (Nat × DispRec K B)) := by
      intro k
      exact List.chain'_nil
    have hrun := runOpsAux_gated ops keyOf prog hmono prog 0
      (ordered (newSink b0)) [] [] (by simp) rfl
      (by simp [ordered, newSink, keysOf]) base_inv base_g
    simpa using hrun
  · intro done k
    rfl

/-- A witness environment in which every task has completed. -/
def envAllDone : FlushEnv Nat Unit :=
  { linger := fun _ => true, taskDone := fun _ => true,
    svcReady := fun _ => SvcPoll.ready }

/-- A witness driver program: accept one event, then flush. -/
def progW : List (DriverOp Nat (VB Nat) Nat Unit) :=
  [DriverOp.send 5, DriverOp.flush envAllDone 4]

/-- Witness for C5 on a concrete two-operation ordered-mode run. -/
theorem per_partition_ordering_witness :
    (∀ i j envi envj seq, i ≤ j → envTaskAt progW i = some envi →
      envTaskAt progW j = some envj → envi.taskDone seq = true →
      envj.taskDone seq = true) ∧
      (GatedLog progW
          (runOpsAux (vecOps Nat 1) natKey 0 progW (ordered (newSink vbEmpty))).2 ∧
        (∀ (done : Nat → Bool) (k : Nat), gateVal (gateFor none done k) = true)) := by
  have hmono : ∀ i j envi envj seq, i ≤ j → envTaskAt progW i = some envi →
      envTaskAt progW j = some envj → envi.taskDone seq = true →
      envj.taskDone seq = true := by
    intro i j envi envj seq _ _ hj _
    rcases j with _ | _ | j
    · simp [envTaskAt, progW] at hj
    · have hje : envj = envAllDone := by
        simp only [envTaskAt, progW, List.get?, Option.some.injEq] at hj
        exact hj.symm
      rw [hje]
      rfl
    · simp [envTaskAt, progW, List.get?] at hj
  exact ⟨hmono,
    per_partition_ordering (vecOps Nat 1) natKey vbEmpty progW hmono⟩

end VectorSink
